import Mathlib

/-!
Verification of the Schemalyzer schema diffing and fingerprinting core
(packages `internal/compare`, `internal/fingerprint`, `pkg/models`).

Shallow embedding conventions:
* Go slices become `List`, Go `*string` becomes `Option String`, Go string
  enums (`ConstraintType`, `DifferenceType`, ...) stay `String`.
* Go `map[string]*T` built by inserting every slice element keyed by name
  (later duplicates overwrite earlier ones) is modelled by `goMapGet`
  (last binding wins) and `goMapKeys` (first-occurrence key order).
  Go's map iteration order is unspecified; we fix first-insertion order.
  Every property proved below (emptiness, cardinality, membership,
  provenance of differences) is invariant under the iteration order.
* `sort.Slice` with a `name < name` comparator is modelled by a stable
  insertion sort (`sortOn`).  Go's `sort.Slice` is unstable in general but
  uses plain insertion sort for the short slices appearing in every
  concrete evaluation below, and order of unequal keys is fixed by any
  correct sort.
* 32-bit machine words are `Nat` reduced `% 2^32`.
-/

set_option maxRecDepth 100000

namespace Schemalyzer

/-! ## Generic list helpers -/

/-- Lexicographic order on character lists by codepoint.  Go compares
strings byte-wise on their UTF-8 encoding, which coincides with
codepoint-lexicographic order because UTF-8 is order-preserving. -/
def strListLe : List Char → List Char → Bool
  | [], _ => true
  | _ :: _, [] => false
  | a :: as, b :: bs =>
    if a.toNat < b.toNat then true
    else if b.toNat < a.toNat then false
    else strListLe as bs

def strLe (a b : String) : Bool := strListLe a.toList b.toList

def ordInsert {α : Type} (key : α → String) (x : α) : List α → List α
  | [] => [x]
  | y :: ys => if strLe (key x) (key y) then x :: y :: ys else y :: ordInsert key x ys

/-- Stable sort by a string key, modelling
`sort.Slice(xs, func(i,j) { name_i < name_j })`. -/
def sortOn {α : Type} (key : α → String) : List α → List α
  | [] => []
  | x :: xs => ordInsert key x (sortOn key xs)

/-- Last binding wins, modelling `m[key] = v` insertion into a Go map. -/
def goMapGet {α : Type} (key : α → String) (k : String) : List α → Option α
  | [] => none
  | x :: xs =>
    match goMapGet key k xs with
    | some v => some v
    | none => if key x = k then some x else none

/-- Keys of the Go map in first-occurrence order. -/
def goMapKeys {α : Type} (key : α → String) : List α → List String
  | [] => []
  | x :: xs => key x :: (goMapKeys key xs).filter (fun s => s ≠ key x)

/-! ## SHA-256 over byte lists (crypto/sha256), 32-bit words as `Nat % 2^32` -/

def M32 : Nat := 4294967296

def mask32 (x : Nat) : Nat := x % M32

def wadd (a b : Nat) : Nat := (a + b) % M32

def wnot (a : Nat) : Nat := 4294967295 - a

def rotr (n x : Nat) : Nat := (x >>> n) + mask32 (x <<< (32 - n))

def chF (e f g : Nat) : Nat := Nat.xor (Nat.land e f) (Nat.land (wnot e) g)

def majF (a b c : Nat) : Nat :=
  Nat.xor (Nat.xor (Nat.land a b) (Nat.land a c)) (Nat.land b c)

def bsig0 (x : Nat) : Nat := Nat.xor (Nat.xor (rotr 2 x) (rotr 13 x)) (rotr 22 x)

def bsig1 (x : Nat) : Nat := Nat.xor (Nat.xor (rotr 6 x) (rotr 11 x)) (rotr 25 x)

def ssig0 (x : Nat) : Nat := Nat.xor (Nat.xor (rotr 7 x) (rotr 18 x)) (x >>> 3)

def ssig1 (x : Nat) : Nat := Nat.xor (Nat.xor (rotr 17 x) (rotr 19 x)) (x >>> 10)

def K256 : List Nat :=
  [1116352408, 1899447441, 3049323471, 3921009573, 961987163, 1508970993,
   2453635748, 2870763221, 3624381080, 310598401, 607225278, 1426881987,
   1925078388, 2162078206, 2614888103, 3248222580, 3835390401, 4022224774,
   264347078, 604807628, 770255983, 1249150122, 1555081692, 1996064986,
   2554220882, 2821834349, 2952996808, 3210313671, 3336571891, 3584528711,
   113926993, 338241895, 666307205, 773529912, 1294757372, 1396182291,
   1695183700, 1986661051, 2177026350, 2456956037, 2730485921, 2820302411,
   3259730800, 3345764771, 3516065817, 3600352804, 4094571909, 275423344,
   430227734, 506948616, 659060556, 883997877, 958139571, 1322822218,
   1537002063, 1747873779, 1955562222, 2024104815, 2227730452, 2361852424,
   2428436474, 2756734187, 3204031479, 3329325298]

structure St8 where
  a : Nat
  b : Nat
  c : Nat
  d : Nat
  e : Nat
  f : Nat
  g : Nat
  h : Nat

def H0 : St8 :=
  ⟨1779033703, 3144134277, 1013904242, 2773480762,
   1359893119, 2600822924, 528734635, 1541459225⟩

def newWord (ws : List Nat) : Nat :=
  let l := ws.length
  wadd (wadd (ssig1 (ws.getD (l - 2) 0)) (ws.getD (l - 7) 0))
       (wadd (ssig0 (ws.getD (l - 15) 0)) (ws.getD (l - 16) 0))

def extendSchedule : List Nat → Nat → List Nat
  | ws, 0 => ws
  | ws, n + 1 => extendSchedule (ws ++ [newWord ws]) n

def roundStep (s : St8) (kw : Nat × Nat) : St8 :=
  let t1 := wadd (wadd (wadd s.h (bsig1 s.e)) (wadd (chF s.e s.f s.g) kw.1)) kw.2
  let t2 := wadd (bsig0 s.a) (majF s.a s.b s.c)
  { a := wadd t1 t2, b := s.a, c := s.b, d := s.c,
    e := wadd s.d t1, f := s.e, g := s.f, h := s.g }

def compressBlock (H : St8) (block : List Nat) : St8 :=
  let w := extendSchedule block 48
  let s := (K256.zip w).foldl roundStep H
  { a := wadd H.a s.a, b := wadd H.b s.b, c := wadd H.c s.c, d := wadd H.d s.d,
    e := wadd H.e s.e, f := wadd H.f s.f, g := wadd H.g s.g, h := wadd H.h s.h }

/-- Split a big-endian byte list into 32-bit words (4 bytes each). -/
def bytesToWords : List Nat → List Nat
  | b0 :: b1 :: b2 :: b3 :: rest =>
    (b0 * 16777216 + b1 * 65536 + b2 * 256 + b3) :: bytesToWords rest
  | _ => []

/-- Split padded bytes into 64-byte blocks, each as 16 words.
The fuel is the byte count, enough since every step consumes 64 bytes. -/
def toBlocksAux : Nat → List Nat → List (List Nat)
  | 0, _ => []
  | _, [] => []
  | fuel + 1, bs => bytesToWords (bs.take 64) :: toBlocksAux fuel (bs.drop 64)

def toBlocks (bs : List Nat) : List (List Nat) := toBlocksAux bs.length bs

/-- Big-endian serialization of `n` into `k` bytes. -/
def beBytes (k : Nat) (n : Nat) : List Nat :=
  match k with
  | 0 => []
  | k + 1 => (n >>> (8 * k)) % 256 :: beBytes k n

/-- SHA-256 padding: 0x80, zeros to 56 mod 64, then the 64-bit bit length. -/
def padMessage (bs : List Nat) : List Nat :=
  let r := (bs.length + 1) % 64
  let k := (120 - r) % 64
  bs ++ [128] ++ List.replicate k 0 ++ beBytes 8 (bs.length * 8)

/-- SHA-256 digest of a byte list, as 32 bytes. -/
def sha256 (bs : List Nat) : List Nat :=
  let final := (toBlocks (padMessage bs)).foldl compressBlock H0
  [final.a, final.b, final.c, final.d, final.e, final.f, final.g, final.h].flatMap (beBytes 4)

def hexDigitChar (n : Nat) : Char := "0123456789abcdef".toList.getD n '0'

def byteHex (b : Nat) : List Char := [hexDigitChar (b / 16), hexDigitChar (b % 16)]

/-- UTF-8 encoding of one character, as bytes. -/
def utf8Bytes (c : Char) : List Nat :=
  let n := c.toNat
  if n < 128 then [n]
  else if n < 2048 then [192 + n / 64, 128 + n % 64]
  else if n < 65536 then [224 + n / 4096, 128 + (n / 64) % 64, 128 + n % 64]
  else [240 + n / 262144, 128 + (n / 4096) % 64, 128 + (n / 64) % 64, 128 + n % 64]

def strBytes (s : String) : List Nat := s.toList.flatMap utf8Bytes

/-- `hex.EncodeToString(sha256.Sum256(data))` for string data. -/
def sha256hex (s : String) : String := String.mk ((sha256 (strBytes s)).flatMap byteHex)

/-- Sanity anchor: the FIPS 180-4 test vector for "abc". -/
theorem sha256hex_abc :
    sha256hex "abc" = "ba7816bf8f01cfea414140de5dae2223b00361a396177a9cb410ff61f20015ad" := by
  decide

/-! ## Entity model (pkg/models).

Go `*string` is `Option String`; the string-typed enums (`ConstraintType`,
`DifferenceType`, trigger event/timing, parameter direction) stay `String`.
Fields that neither the Comparer nor the Hasher ever reads (`Stats`,
`RowCount`, `Samples`) are omitted. -/

structure Column where
  name : String
  dataType : String
  isNullable : Bool
  defaultValue : Option String
  isPrimaryKey : Bool
  isUnique : Bool
  isAutoIncrement : Bool
  comment : String
  position : Int
deriving DecidableEq, Repr

structure Constraint where
  name : String
  type : String
  columns : List String
  referencedTable : String
  referencedColumn : List String
  onUpdate : String
  onDelete : String
  checkExpression : String
deriving DecidableEq, Repr

structure Index where
  name : String
  tableName : String
  columns : List String
  isUnique : Bool
  type : String
deriving DecidableEq, Repr

structure Table where
  schema : String
  name : String
  columns : List Column
  constraints : List Constraint
  indexes : List Index
  comment : String
deriving DecidableEq, Repr

structure View where
  schema : String
  name : String
  definition : String
  columns : List Column
deriving DecidableEq, Repr

structure Sequence where
  schema : String
  name : String
  startValue : Int
  increment : Int
  minValue : Int
  maxValue : Int
  isCyclic : Bool
  currentValue : Int
deriving DecidableEq, Repr

structure Parameter where
  name : String
  dataType : String
  direction : String
deriving DecidableEq, Repr

structure Procedure where
  schema : String
  name : String
  parameters : List Parameter
  body : String
deriving DecidableEq, Repr

structure Func where
  schema : String
  name : String
  parameters : List Parameter
  returnType : String
  body : String
deriving DecidableEq, Repr

structure Trigger where
  schema : String
  name : String
  tableName : String
  event : String
  timing : String
  body : String
deriving DecidableEq, Repr

structure Schema where
  name : String
  databaseType : String
  tables : List Table
  views : List View
  indexes : List Index
  sequences : List Sequence
  procedures : List Procedure
  functions : List Func
  triggers : List Trigger
deriving DecidableEq, Repr

/-- `models.Difference`. The heterogeneous `Source`/`Target` payloads
(references to the compared objects, typed `interface` in Go) are omitted:
no verified claim inspects them, and they are determined by the kind, the
name and the two input schemas. -/
structure Difference where
  type : String
  objectType : String
  objectName : String
  description : String
deriving DecidableEq, Repr

/-- `models.ComparisonResult` restricted to the difference list (the schema
references and wall-clock `ComparisonTime` carry no comparison content). -/
structure ComparisonResult where
  differences : List Difference
deriving DecidableEq, Repr

/-! ## Ignore patterns (pkg/models/ignore.go).

`convertWildcardToRegex` runs `regexp.QuoteMeta`, rewrites `\*` to `.*` and
`\?` to `.`, and anchors with `^...$`.  QuoteMeta escapes every
metacharacter, so the two rewrite passes hit exactly the escapes produced
from `*` and `?`; the composition therefore acts character by character,
which is how `convertCharToRegex` renders it.  The compiled `regexp.Regexp`
is modelled as a token list (`RTok`): `regexpCompile` parses exactly the
anchored fragment this file generates (literals, escaped metacharacters,
`.`, `.*`) and fails on anything else, which is conservative: inside this
repository it is only ever applied to `convertWildcardToRegex` outputs.
`MatchString` on a `^...$` pattern holds exactly when the whole name
matches, which is what `matchToks` computes. -/

inductive RTok where
  | lit : Char → RTok
  | anyOne : RTok
  | star : RTok
deriving DecidableEq, Repr

/-- The characters `regexp.QuoteMeta` escapes. -/
def regexSpecials : List Char :=
  ['\\', '.', '+', '*', '?', '(', ')', '|', '[', ']', '\x7b', '\x7d', '^', '$']

def convertCharToRegex (c : Char) : List Char :=
  if c = '*' then ['.', '*']
  else if c = '?' then ['.']
  else if c ∈ regexSpecials then ['\\', c]
  else [c]

def convertWildcardToRegex (pattern : String) : String :=
  "^" ++ String.mk (pattern.toList.flatMap convertCharToRegex) ++ "$"

def lexRegexBody : List Char → Option (List RTok)
  | [] => some []
  | '\\' :: d :: rest =>
    if d ∈ regexSpecials then (lexRegexBody rest).map (RTok.lit d :: ·) else none
  | '.' :: '*' :: rest => (lexRegexBody rest).map (RTok.star :: ·)
  | '.' :: rest => (lexRegexBody rest).map (RTok.anyOne :: ·)
  | c :: rest =>
    if c = '\\' then none
    else if c ∈ regexSpecials then none
    else (lexRegexBody rest).map (RTok.lit c :: ·)

/-- `regexp.Compile`, restricted to the anchored fragment described above. -/
def regexpCompile (re : String) : Option (List RTok) :=
  match re.toList with
  | '^' :: rest => if rest.getLast? = some '$' then lexRegexBody rest.dropLast else none
  | _ => none

/-- Fuel-indexed matcher; fuel `|toks| + |chars| + 1` always suffices since
every recursive call shrinks `|toks| + |chars|`.  With the `s` flag off —
the default under which `regexp.Compile` runs here — the regexp `.` (and
hence the run consumed by `.*`) matches any character except newline, so
`anyOne` and the character steps of `star` refuse `'\n'`. -/
def matchToksAux : Nat → List RTok → List Char → Bool
  | 0, _, _ => false
  | _ + 1, [], ds => ds.isEmpty
  | _ + 1, RTok.lit _ :: _, [] => false
  | fuel + 1, RTok.lit c :: ts, d :: ds => c == d && matchToksAux fuel ts ds
  | _ + 1, RTok.anyOne :: _, [] => false
  | fuel + 1, RTok.anyOne :: ts, d :: ds => d != '\n' && matchToksAux fuel ts ds
  | fuel + 1, RTok.star :: ts, [] => matchToksAux fuel ts []
  | fuel + 1, RTok.star :: ts, d :: ds =>
    matchToksAux fuel ts (d :: ds) || (d != '\n' && matchToksAux fuel (RTok.star :: ts) ds)

/-- Anchored (whole-name) matching of a compiled pattern. -/
def matchToks (ts : List RTok) (cs : List Char) : Bool :=
  matchToksAux (ts.length + cs.length + 1) ts cs

structure IgnorePattern where
  pattern : String
  objectType : String
  regex : List RTok
deriving DecidableEq, Repr

structure IgnoreConfig where
  patterns : List IgnorePattern
deriving DecidableEq, Repr

/-- `strings.ToLower` restricted to ASCII; every object-kind string this
repository passes through it is ASCII. -/
def asciiLowerChar (c : Char) : Char :=
  if 'A' ≤ c ∧ c ≤ 'Z' then Char.ofNat (c.toNat + 32) else c

def asciiToLower (s : String) : String := String.mk (s.toList.map asciiLowerChar)

/-- `strings.SplitN(s, ":", 2)`: the part before the first colon, and the
rest after it when a colon exists. -/
def splitN2Colon (s : String) : String × Option String :=
  match s.toList.span (fun c => c ≠ ':') with
  | (pre, []) => (String.mk pre, none)
  | (pre, _ :: post) => (String.mk pre, some (String.mk post))

def ShouldIgnore (ic : IgnoreConfig) (objectType objectName : String) : Bool :=
  let ot := asciiToLower objectType
  ic.patterns.any fun p =>
    (p.objectType == "*" || p.objectType == ot) && matchToks p.regex objectName.toList

def buildPatterns : List String → Except String (List IgnorePattern)
  | [] => .ok []
  | p :: rest =>
    let kindAndPat : String × String :=
      match splitN2Colon p with
      | (pre, some post) => (asciiToLower pre, post)
      | (_, none) => ("*", p)
    match regexpCompile (convertWildcardToRegex kindAndPat.2) with
    | some toks => (buildPatterns rest).map (⟨kindAndPat.2, kindAndPat.1, toks⟩ :: ·)
    | none => .error "InvalidPattern"

def NewIgnoreConfig (patterns : List String) : Except String IgnoreConfig :=
  (buildPatterns patterns).map IgnoreConfig.mk

/-! ## Comparer (internal/compare/comparer.go).

Every per-kind compare builds a name-keyed Go map of each side and walks it
three times (removed / added / modified).  `compareByName` renders that
shape once; the seven per-kind functions instantiate it with the source's
object-kind label, name qualifier, equality predicate and description
strings.  Iteration order of a Go map is unspecified; we fix
first-insertion order, and only order-insensitive consequences
(emptiness, cardinality, membership) are claimed. -/

def stringPointersEqual : Option String → Option String → Bool
  | none, none => true
  | some a, some b => a == b
  | _, _ => false

def columnsEqual (source target : Column) : Bool :=
  source.dataType == target.dataType &&
  source.isNullable == target.isNullable &&
  stringPointersEqual source.defaultValue target.defaultValue &&
  source.isPrimaryKey == target.isPrimaryKey &&
  source.isUnique == target.isUnique &&
  source.isAutoIncrement == target.isAutoIncrement &&
  source.comment == target.comment

def countOcc (l : List String) (k : String) : Nat := (l.filter (fun s => s == k)).length

def stringSlicesEqualAsSet (a b : List String) : Bool :=
  a.length == b.length && a.all fun k => countOcc b k == countOcc a k

def constraintsEqual (source target : Constraint) : Bool :=
  source.type == target.type &&
  stringSlicesEqualAsSet source.columns target.columns &&
  source.referencedTable == target.referencedTable &&
  stringSlicesEqualAsSet source.referencedColumn target.referencedColumn &&
  source.checkExpression == target.checkExpression

def indexesEqual (source target : Index) : Bool :=
  source.isUnique == target.isUnique &&
  source.type == target.type &&
  source.columns == target.columns

def sequencesEqual (source target : Sequence) : Bool :=
  source.startValue == target.startValue &&
  source.increment == target.increment &&
  source.minValue == target.minValue &&
  source.maxValue == target.maxValue &&
  source.isCyclic == target.isCyclic

def triggersEqual (source target : Trigger) : Bool :=
  source.tableName == target.tableName &&
  source.event == target.event &&
  source.timing == target.timing &&
  source.body == target.body

def viewsEqual (source target : View) : Bool := source.definition == target.definition

def proceduresEqual (source target : Procedure) : Bool := source.body == target.body

def functionsEqual (source target : Func) : Bool :=
  source.body == target.body && source.returnType == target.returnType

def compareByName {α : Type} (objectType : String) (key : α → String)
    (qual : String → String) (eqF : α → α → Bool)
    (remDesc addDesc modDesc : String) (source target : List α) : List Difference :=
  let removed := (goMapKeys key source).filterMap fun k =>
    match goMapGet key k target with
    | some _ => none
    | none => some ⟨"REMOVED", objectType, qual k, remDesc⟩
  let added := (goMapKeys key target).filterMap fun k =>
    match goMapGet key k source with
    | some _ => none
    | none => some ⟨"ADDED", objectType, qual k, addDesc⟩
  let modified := (goMapKeys key source).filterMap fun k =>
    match goMapGet key k source, goMapGet key k target with
    | some sv, some tv =>
      if eqF sv tv then none else some ⟨"MODIFIED", objectType, qual k, modDesc⟩
    | _, _ => none
  removed ++ added ++ modified

def compareColumns (tableName : String) (source target : List Column) : List Difference :=
  compareByName "Column" Column.name (fun n => tableName ++ "." ++ n) columnsEqual
    "Column removed from table" "Column added to table" "Column definition changed"
    source target

def compareConstraints (tableName : String) (source target : List Constraint) : List Difference :=
  compareByName "Constraint" Constraint.name (fun n => tableName ++ "." ++ n) constraintsEqual
    "Constraint removed from table" "Constraint added to table" "Constraint definition changed"
    source target

def compareTableIndexes (tableName : String) (source target : List Index) : List Difference :=
  compareByName "Index" Index.name (fun n => tableName ++ "." ++ n) indexesEqual
    "Index removed from table" "Index added to table" "Index definition changed"
    source target

def compareTable (source target : Table) : List Difference :=
  compareColumns source.name source.columns target.columns ++
  compareConstraints source.name source.constraints target.constraints ++
  compareTableIndexes source.name source.indexes target.indexes ++
  (if source.comment ≠ target.comment then
    [⟨"MODIFIED", "Table Comment", source.name, "Table comment changed"⟩]
  else [])

def filterColumns (ic : IgnoreConfig) (columns : List Column) : List Column :=
  columns.filter fun c => !ShouldIgnore ic "column" c.name

def filterConstraints (ic : IgnoreConfig) (constraints : List Constraint) : List Constraint :=
  constraints.filter fun c => !ShouldIgnore ic "constraint" c.name

def filterIndexes (ic : IgnoreConfig) (indexes : List Index) : List Index :=
  indexes.filter fun i => !ShouldIgnore ic "index" i.name

def filterTables (ic : IgnoreConfig) (tables : List Table) : List Table :=
  (tables.filter fun t => !ShouldIgnore ic "table" t.name).map fun t =>
    { t with columns := filterColumns ic t.columns,
             constraints := filterConstraints ic t.constraints,
             indexes := filterIndexes ic t.indexes }

def filterViews (ic : IgnoreConfig) (views : List View) : List View :=
  views.filter fun v => !ShouldIgnore ic "view" v.name

def filterSequences (ic : IgnoreConfig) (sequences : List Sequence) : List Sequence :=
  sequences.filter fun s => !ShouldIgnore ic "sequence" s.name

def filterProcedures (ic : IgnoreConfig) (procedures : List Procedure) : List Procedure :=
  procedures.filter fun p => !ShouldIgnore ic "procedure" p.name

def filterFunctions (ic : IgnoreConfig) (functions : List Func) : List Func :=
  functions.filter fun f => !ShouldIgnore ic "function" f.name

def filterTriggers (ic : IgnoreConfig) (triggers : List Trigger) : List Trigger :=
  triggers.filter fun t => !ShouldIgnore ic "trigger" t.name

structure Comparer where
  ignoreConfig : Option IgnoreConfig

def NewComparer : Comparer := ⟨none⟩

def NewComparerWithIgnore (ic : IgnoreConfig) : Comparer := ⟨some ic⟩

def applyFilter {α : Type} (c : Comparer) (f : IgnoreConfig → List α → List α)
    (l : List α) : List α :=
  match c.ignoreConfig with
  | some ic => f ic l
  | none => l

def Comparer.compareTables (c : Comparer) (source target : List Table) : List Difference :=
  let source := applyFilter c filterTables source
  let target := applyFilter c filterTables target
  let removed := (goMapKeys Table.name source).filterMap fun k =>
    match goMapGet Table.name k target with
    | some _ => none
    | none => some ⟨"REMOVED", "Table", k, "Table exists in source but not in target"⟩
  let added := (goMapKeys Table.name target).filterMap fun k =>
    match goMapGet Table.name k source with
    | some _ => none
    | none => some ⟨"ADDED", "Table", k, "Table exists in target but not in source"⟩
  let modified := (goMapKeys Table.name source).flatMap fun k =>
    match goMapGet Table.name k source, goMapGet Table.name k target with
    | some s, some t => compareTable s t
    | _, _ => []
  removed ++ added ++ modified

def Comparer.compareViews (c : Comparer) (source target : List View) : List Difference :=
  compareByName "View" View.name id viewsEqual
    "View exists in source but not in target" "View exists in target but not in source"
    "View definition changed"
    (applyFilter c filterViews source) (applyFilter c filterViews target)

def Comparer.compareIndexes (c : Comparer) (source target : List Index) : List Difference :=
  compareByName "Index" Index.name id indexesEqual
    "Index exists in source but not in target" "Index exists in target but not in source"
    "Index definition changed"
    (applyFilter c filterIndexes source) (applyFilter c filterIndexes target)

def Comparer.compareSequences (c : Comparer) (source target : List Sequence) : List Difference :=
  compareByName "Sequence" Sequence.name id sequencesEqual
    "Sequence exists in source but not in target" "Sequence exists in target but not in source"
    "Sequence definition changed"
    (applyFilter c filterSequences source) (applyFilter c filterSequences target)

def Comparer.compareProcedures (c : Comparer) (source target : List Procedure) : List Difference :=
  compareByName "Procedure" Procedure.name id proceduresEqual
    "Procedure exists in source but not in target" "Procedure exists in target but not in source"
    "Procedure definition changed"
    (applyFilter c filterProcedures source) (applyFilter c filterProcedures target)

def Comparer.compareFunctions (c : Comparer) (source target : List Func) : List Difference :=
  compareByName "Function" Func.name id functionsEqual
    "Function exists in source but not in target" "Function exists in target but not in source"
    "Function definition changed"
    (applyFilter c filterFunctions source) (applyFilter c filterFunctions target)

def Comparer.compareTriggers (c : Comparer) (source target : List Trigger) : List Difference :=
  compareByName "Trigger" Trigger.name id triggersEqual
    "Trigger exists in source but not in target" "Trigger exists in target but not in source"
    "Trigger definition changed"
    (applyFilter c filterTriggers source) (applyFilter c filterTriggers target)

def Comparer.Compare (c : Comparer) (source target : Schema) : ComparisonResult :=
  ⟨c.compareTables source.tables target.tables ++
   c.compareViews source.views target.views ++
   c.compareIndexes source.indexes target.indexes ++
   c.compareSequences source.sequences target.sequences ++
   c.compareProcedures source.procedures target.procedures ++
   c.compareFunctions source.functions target.functions ++
   c.compareTriggers source.triggers target.triggers⟩

/-! ## Canonicalizer / fingerprinter (internal/fingerprint/hasher.go).

Each `normalizeX` builds a `map[string]interface{}` with a fixed key set
per entity kind, some keys conditionally present.  Such a map is exactly a
record with `Option` fields for the conditional keys, which is how the
`Norm*` structures below render it.  `json.Marshal` emits map keys in
sorted order and is deterministic, so the digest is
`sha256hex` of the encoder `encNormSchema` below, which writes each
record's present keys in sorted order.  A `nil` Go slice (a `normalizeX`
result for an empty input collection) marshals as `null`; a non-nil empty
slice (an index's copied column list) marshals as `[]`. -/

structure NormColumn where
  name : String
  type : String
  nullable : Bool
  position : Int
  primaryKey : Bool
  unique : Bool
  defaultVal : Option String
  autoIncrement : Bool
  comment : Option String
deriving DecidableEq, Repr

structure NormConstraint where
  name : String
  type : String
  columns : Option (List String)
  refTable : Option String
  refColumns : Option (List String)
  checkExpr : Option String
deriving DecidableEq, Repr

structure NormTableIndex where
  name : String
  unique : Bool
  columns : List String
  type : Option String
deriving DecidableEq, Repr

structure NormIndex where
  name : String
  table : String
  unique : Bool
  columns : List String
  type : Option String
deriving DecidableEq, Repr

structure NormTable where
  name : String
  columns : List NormColumn
  constraints : List NormConstraint
  indexes : List NormTableIndex
  comment : Option String
deriving DecidableEq, Repr

structure NormView where
  name : String
  definition : String
deriving DecidableEq, Repr

structure NormSequence where
  name : String
  start : Int
  increment : Int
  minValue : Int
  maxValue : Int
  cyclic : Bool
deriving DecidableEq, Repr

structure NormParameter where
  name : String
  type : String
  direction : String
deriving DecidableEq, Repr

structure NormProcedure where
  name : String
  parameters : List NormParameter
  body : String
deriving DecidableEq, Repr

structure NormFunction where
  name : String
  parameters : List NormParameter
  returnType : String
  body : String
deriving DecidableEq, Repr

structure NormTrigger where
  name : String
  table : String
  event : String
  timing : String
  body : String
deriving DecidableEq, Repr

structure NormSchema where
  tables : List NormTable
  views : List NormView
  indexes : List NormIndex
  sequences : List NormSequence
  procedures : List NormProcedure
  functions : List NormFunction
  triggers : List NormTrigger
deriving DecidableEq, Repr

def normalizeColumns (includeComments : Bool) (columns : List Column) : List NormColumn :=
  (sortOn Column.name columns).map fun col =>
    { name := col.name, type := col.dataType, nullable := col.isNullable,
      position := col.position, primaryKey := col.isPrimaryKey, unique := col.isUnique,
      defaultVal := col.defaultValue,
      autoIncrement := col.isAutoIncrement,
      comment := if includeComments ∧ col.comment ≠ "" then some col.comment else none }

def normalizeConstraints (constraints : List Constraint) : List NormConstraint :=
  (sortOn Constraint.name constraints).map fun c =>
    { name := c.name, type := c.type,
      columns := if c.columns.length > 0 then some (sortOn id c.columns) else none,
      refTable := if c.referencedTable ≠ "" then some c.referencedTable else none,
      refColumns :=
        if c.referencedColumn.length > 0 then some (sortOn id c.referencedColumn) else none,
      checkExpr := if c.checkExpression ≠ "" then some c.checkExpression else none }

def normalizeTableIndexes (indexes : List Index) : List NormTableIndex :=
  (sortOn Index.name indexes).map fun idx =>
    { name := idx.name, unique := idx.isUnique,
      columns := sortOn id idx.columns,
      type := if idx.type ≠ "" then some idx.type else none }

def normalizeIndexes (indexes : List Index) : List NormIndex :=
  (sortOn Index.name indexes).map fun idx =>
    { name := idx.name, table := idx.tableName, unique := idx.isUnique,
      columns := sortOn id idx.columns,
      type := if idx.type ≠ "" then some idx.type else none }

def normalizeTables (includeComments : Bool) (tables : List Table) : List NormTable :=
  (sortOn Table.name tables).map fun t =>
    { name := t.name,
      columns := normalizeColumns includeComments t.columns,
      constraints := normalizeConstraints t.constraints,
      indexes := normalizeTableIndexes t.indexes,
      comment := if includeComments ∧ t.comment ≠ "" then some t.comment else none }

def normalizeViews (views : List View) : List NormView :=
  (sortOn View.name views).map fun v => { name := v.name, definition := v.definition }

def normalizeSequences (sequences : List Sequence) : List NormSequence :=
  (sortOn Sequence.name sequences).map fun s =>
    { name := s.name, start := s.startValue, increment := s.increment,
      minValue := s.minValue, maxValue := s.maxValue, cyclic := s.isCyclic }

def normalizeParameters (params : List Parameter) : List NormParameter :=
  (sortOn Parameter.name params).map fun p =>
    { name := p.name, type := p.dataType, direction := p.direction }

def normalizeProcedures (procedures : List Procedure) : List NormProcedure :=
  (sortOn Procedure.name procedures).map fun p =>
    { name := p.name, parameters := normalizeParameters p.parameters, body := p.body }

def normalizeFunctions (functions : List Func) : List NormFunction :=
  (sortOn Func.name functions).map fun f =>
    { name := f.name, parameters := normalizeParameters f.parameters,
      returnType := f.returnType, body := f.body }

def normalizeTriggers (triggers : List Trigger) : List NormTrigger :=
  (sortOn Trigger.name triggers).map fun t =>
    { name := t.name, table := t.tableName, event := t.event,
      timing := t.timing, body := t.body }

def normalizeSchema (includeComments : Bool) (s : Schema) : NormSchema :=
  { tables := normalizeTables includeComments s.tables,
    views := normalizeViews s.views,
    indexes := normalizeIndexes s.indexes,
    sequences := normalizeSequences s.sequences,
    procedures := normalizeProcedures s.procedures,
    functions := normalizeFunctions s.functions,
    triggers := normalizeTriggers s.triggers }

/-! ### Byte-stable serialization (`encoding/json.Marshal` on the maps above) -/

def lbraceChar : Char := '\x7b'

def rbraceChar : Char := '\x7d'

def jsonEscapeChar (c : Char) : List Char :=
  if c = '"' then ['\\', '"']
  else if c = '\\' then ['\\', '\\']
  else if c = '\n' then ['\\', 'n']
  else if c = '\r' then ['\\', 'r']
  else if c = '\t' then ['\\', 't']
  else if c.toNat < 32 then
    ['\\', 'u', '0', '0', hexDigitChar (c.toNat / 16), hexDigitChar (c.toNat % 16)]
  else if c = '<' then ['\\', 'u', '0', '0', '3', 'c']
  else if c = '>' then ['\\', 'u', '0', '0', '3', 'e']
  else if c = '&' then ['\\', 'u', '0', '0', '2', '6']
  else [c]

def jsonStr (s : String) : String :=
  "\"" ++ String.mk (s.toList.flatMap jsonEscapeChar) ++ "\""

def jsonInt (i : Int) : String := toString i

def jsonBool (b : Bool) : String := if b then "true" else "false"

/-- A JSON object from the present fields, already key-sorted by the caller. -/
def jsonObj (fields : List (Option (String × String))) : String :=
  String.singleton lbraceChar ++
  String.intercalate "," ((fields.filterMap id).map fun kv => jsonStr kv.1 ++ ":" ++ kv.2) ++
  String.singleton rbraceChar

/-- A non-nil Go slice: `[]` when empty. -/
def jsonArr (xs : List String) : String := "[" ++ String.intercalate "," xs ++ "]"

/-- A `normalizeX` result slice: built by `append` from `nil`, hence `null`
when the input collection was empty. -/
def jsonArrOrNull (xs : List String) : String :=
  if xs.isEmpty then "null" else jsonArr xs

def encStrList (xs : List String) : String := jsonArr (xs.map jsonStr)

def encNormColumn (c : NormColumn) : String :=
  jsonObj
    [if c.autoIncrement then some ("auto_increment", jsonBool true) else none,
     c.comment.map fun s => ("comment", jsonStr s),
     c.defaultVal.map fun s => ("default", jsonStr s),
     some ("name", jsonStr c.name),
     some ("nullable", jsonBool c.nullable),
     some ("position", jsonInt c.position),
     some ("primary_key", jsonBool c.primaryKey),
     some ("type", jsonStr c.type),
     some ("unique", jsonBool c.unique)]

def encNormConstraint (c : NormConstraint) : String :=
  jsonObj
    [c.checkExpr.map fun s => ("check_expr", jsonStr s),
     c.columns.map fun cs => ("columns", encStrList cs),
     some ("name", jsonStr c.name),
     c.refColumns.map fun cs => ("ref_columns", encStrList cs),
     c.refTable.map fun s => ("ref_table", jsonStr s),
     some ("type", jsonStr c.type)]

def encNormTableIndex (i : NormTableIndex) : String :=
  jsonObj
    [some ("columns", encStrList i.columns),
     some ("name", jsonStr i.name),
     i.type.map fun s => ("type", jsonStr s),
     some ("unique", jsonBool i.unique)]

def encNormIndex (i : NormIndex) : String :=
  jsonObj
    [some ("columns", encStrList i.columns),
     some ("name", jsonStr i.name),
     some ("table", jsonStr i.table),
     i.type.map fun s => ("type", jsonStr s),
     some ("unique", jsonBool i.unique)]

def encNormTable (t : NormTable) : String :=
  jsonObj
    [some ("columns", jsonArrOrNull (t.columns.map encNormColumn)),
     t.comment.map fun s => ("comment", jsonStr s),
     some ("constraints", jsonArrOrNull (t.constraints.map encNormConstraint)),
     some ("indexes", jsonArrOrNull (t.indexes.map encNormTableIndex)),
     some ("name", jsonStr t.name)]

def encNormView (v : NormView) : String :=
  jsonObj [some ("definition", jsonStr v.definition), some ("name", jsonStr v.name)]

def encNormSequence (s : NormSequence) : String :=
  jsonObj
    [some ("cyclic", jsonBool s.cyclic),
     some ("increment", jsonInt s.increment),
     some ("max_value", jsonInt s.maxValue),
     some ("min_value", jsonInt s.minValue),
     some ("name", jsonStr s.name),
     some ("start", jsonInt s.start)]

def encNormParameter (p : NormParameter) : String :=
  jsonObj
    [some ("direction", jsonStr p.direction),
     some ("name", jsonStr p.name),
     some ("type", jsonStr p.type)]

def encNormProcedure (p : NormProcedure) : String :=
  jsonObj
    [some ("body", jsonStr p.body),
     some ("name", jsonStr p.name),
     some ("parameters", jsonArrOrNull (p.parameters.map encNormParameter))]

def encNormFunction (f : NormFunction) : String :=
  jsonObj
    [some ("body", jsonStr f.body),
     some ("name", jsonStr f.name),
     some ("parameters", jsonArrOrNull (f.parameters.map encNormParameter)),
     some ("return_type", jsonStr f.returnType)]

def encNormTrigger (t : NormTrigger) : String :=
  jsonObj
    [some ("body", jsonStr t.body),
     some ("event", jsonStr t.event),
     some ("name", jsonStr t.name),
     some ("table", jsonStr t.table),
     some ("timing", jsonStr t.timing)]

def encNormSchema (s : NormSchema) : String :=
  jsonObj
    [some ("functions", jsonArrOrNull (s.functions.map encNormFunction)),
     some ("indexes", jsonArrOrNull (s.indexes.map encNormIndex)),
     some ("procedures", jsonArrOrNull (s.procedures.map encNormProcedure)),
     some ("sequences", jsonArrOrNull (s.sequences.map encNormSequence)),
     some ("tables", jsonArrOrNull (s.tables.map encNormTable)),
     some ("triggers", jsonArrOrNull (s.triggers.map encNormTrigger)),
     some ("views", jsonArrOrNull (s.views.map encNormView))]

structure Hasher where
  includeComments : Bool
  verbose : Bool

def NewHasher : Hasher := ⟨false, false⟩

/-- `Hasher.GenerateFingerprint`: canonicalize, `json.Marshal`, SHA-256,
lowercase hex.  Marshalling the closed field set above cannot fail, so the
Go error branch is dead and the result is the digest string. -/
def Hasher.GenerateFingerprint (h : Hasher) (s : Schema) : String :=
  sha256hex (encNormSchema (normalizeSchema h.includeComments s))

/-- The caller-visible state of the argument schema after
`GenerateFingerprint` returns.  Every `normalizeX` runs `sort.Slice`
directly on the caller's backing arrays: the schema-level collections, each
kept table's `Columns`/`Constraints`/`Indexes`, and each routine's
`Parameters` are reordered in place.  Only the string column lists of
constraints and indexes are copied before sorting. -/
def fingerprintPostState (s : Schema) : Schema :=
  { s with
    tables := (sortOn Table.name s.tables).map fun t =>
      { t with columns := sortOn Column.name t.columns,
               constraints := sortOn Constraint.name t.constraints,
               indexes := sortOn Index.name t.indexes },
    views := sortOn View.name s.views,
    indexes := sortOn Index.name s.indexes,
    sequences := sortOn Sequence.name s.sequences,
    procedures := (sortOn Procedure.name s.procedures).map fun p =>
      { p with parameters := sortOn Parameter.name p.parameters },
    functions := (sortOn Func.name s.functions).map fun f =>
      { f with parameters := sortOn Parameter.name f.parameters },
    triggers := sortOn Trigger.name s.triggers }

/-! ## Order-theoretic facts about `strLe` and `sortOn` -/

theorem char_eq_of_toNat_eq {c d : Char} (h : c.toNat = d.toNat) : c = d :=
  Char.eq_of_val_eq (UInt32.ext h)

theorem strListLe_total : ∀ a b : List Char, strListLe a b = true ∨ strListLe b a = true
  | [], _ => Or.inl rfl
  | _ :: _, [] => Or.inr rfl
  | a :: as, b :: bs => by
    simp only [strListLe]
    rcases Nat.lt_trichotomy a.toNat b.toNat with h | h | h
    · left; simp [h]
    · have hne : ¬ a.toNat < b.toNat := by omega
      have hne' : ¬ b.toNat < a.toNat := by omega
      rcases strListLe_total as bs with ih | ih
      · left; simp [hne, hne', ih]
      · right; simp [hne, hne', h, ih]
    · right; simp [h]

theorem strListLe_antisymm :
    ∀ {a b : List Char}, strListLe a b = true → strListLe b a = true → a = b
  | [], [], _, _ => rfl
  | [], _ :: _, _, h2 => by simp [strListLe] at h2
  | _ :: _, [], h1, _ => by simp [strListLe] at h1
  | a :: as, b :: bs, h1, h2 => by
    simp only [strListLe] at h1 h2
    rcases Nat.lt_trichotomy a.toNat b.toNat with h | h | h
    · simp [show ¬ b.toNat < a.toNat by omega, h] at h2
    · have hne : ¬ a.toNat < b.toNat := by omega
      have hne' : ¬ b.toNat < a.toNat := by omega
      simp only [hne, hne', if_neg, ite_false] at h1 h2
      have := strListLe_antisymm h1 h2
      rw [char_eq_of_toNat_eq h, this]
    · simp [show ¬ a.toNat < b.toNat by omega, h] at h1

theorem strListLe_trans :
    ∀ {a b c : List Char}, strListLe a b = true → strListLe b c = true → strListLe a c = true
  | [], _, _, _, _ => rfl
  | _ :: _, [], _, h1, _ => by simp [strListLe] at h1
  | _ :: _, _ :: _, [], _, h2 => by simp [strListLe] at h2
  | a :: as, b :: bs, c :: cs, h1, h2 => by
    simp only [strListLe] at h1 h2 ⊢
    rcases Nat.lt_trichotomy a.toNat b.toNat with hab | hab | hab
    · rcases Nat.lt_trichotomy b.toNat c.toNat with hbc | hbc | hbc
      · simp [show a.toNat < c.toNat by omega]
      · simp [show a.toNat < c.toNat by omega]
      · simp [show ¬ b.toNat < c.toNat by omega, hbc] at h2
    · rcases Nat.lt_trichotomy b.toNat c.toNat with hbc | hbc | hbc
      · simp [show a.toNat < c.toNat by omega]
      · have h1' : strListLe as bs = true := by
          simpa [show ¬ a.toNat < b.toNat by omega, show ¬ b.toNat < a.toNat by omega] using h1
        have h2' : strListLe bs cs = true := by
          simpa [show ¬ b.toNat < c.toNat by omega, show ¬ c.toNat < b.toNat by omega] using h2
        simp [show ¬ a.toNat < c.toNat by omega, show ¬ c.toNat < a.toNat by omega,
          strListLe_trans h1' h2']
      · simp [show ¬ b.toNat < c.toNat by omega, hbc] at h2
    · simp [show ¬ a.toNat < b.toNat by omega, hab] at h1

theorem string_toList_inj {a b : String} (h : a.toList = b.toList) : a = b := by
  cases a; cases b; exact congrArg String.mk h

theorem strLe_total (a b : String) : strLe a b = true ∨ strLe b a = true :=
  strListLe_total a.toList b.toList

theorem strLe_antisymm {a b : String} (h1 : strLe a b = true) (h2 : strLe b a = true) :
    a = b :=
  string_toList_inj (strListLe_antisymm h1 h2)

theorem strLe_trans {a b c : String} (h1 : strLe a b = true) (h2 : strLe b c = true) :
    strLe a c = true :=
  strListLe_trans h1 h2

theorem ordInsert_perm {α : Type} (key : α → String) (x : α) :
    ∀ l : List α, List.Perm (ordInsert key x l) (x :: l)
  | [] => List.Perm.refl _
  | y :: ys => by
    simp only [ordInsert]
    by_cases h : strLe (key x) (key y) = true
    · simp [h]
    · simp only [h, if_false]
      exact ((ordInsert_perm key x ys).cons y).trans (List.Perm.swap x y ys)

theorem sortOn_perm {α : Type} (key : α → String) :
    ∀ l : List α, List.Perm (sortOn key l) l
  | [] => List.Perm.refl _
  | x :: xs =>
    (ordInsert_perm key x (sortOn key xs)).trans ((sortOn_perm key xs).cons x)

theorem ordInsert_pairwise {α : Type} (key : α → String) (x : α) :
    ∀ {l : List α}, List.Pairwise (fun a b => strLe (key a) (key b) = true) l →
      List.Pairwise (fun a b => strLe (key a) (key b) = true) (ordInsert key x l)
  | [], _ => List.Pairwise.cons (by simp) List.Pairwise.nil
  | y :: ys, h => by
    rcases List.pairwise_cons.mp h with ⟨hy, hys⟩
    simp only [ordInsert]
    by_cases hxy : strLe (key x) (key y) = true
    · simp only [hxy, if_true]
      refine List.pairwise_cons.mpr ⟨?_, h⟩
      intro z hz
      rcases List.mem_cons.mp hz with heq | hm
      · rw [heq]; exact hxy
      · exact strLe_trans hxy (hy _ hm)
    · simp only [hxy, if_false]
      refine List.pairwise_cons.mpr ⟨?_, ordInsert_pairwise key x hys⟩
      intro z hz
      have hz' : z ∈ x :: ys := (ordInsert_perm key x ys).mem_iff.mp hz
      rcases List.mem_cons.mp hz' with heq | hz'
      · rw [heq]
        rcases strLe_total (key y) (key x) with h' | h'
        · exact h'
        · exact absurd h' hxy
      · exact hy _ hz'

theorem sortOn_pairwise {α : Type} (key : α → String) :
    ∀ l : List α, List.Pairwise (fun a b => strLe (key a) (key b) = true) (sortOn key l)
  | [] => List.Pairwise.nil
  | x :: xs => ordInsert_pairwise key x (sortOn_pairwise key xs)

/-- Two sorted permutations of each other are equal, provided elements with
equal keys are equal. -/
theorem sorted_perm_unique {α : Type} (key : α → String) :
    ∀ l₁ l₂ : List α,
      List.Pairwise (fun a b => strLe (key a) (key b) = true) l₁ →
      List.Pairwise (fun a b => strLe (key a) (key b) = true) l₂ →
      List.Perm l₁ l₂ →
      (∀ a ∈ l₁, ∀ b ∈ l₁, key a = key b → a = b) → l₁ = l₂
  | [], l₂, _, _, hp, _ => (List.Perm.nil_eq hp).symm ▸ rfl
  | x :: t, [], _, _, hp, _ => absurd hp (by simp)
  | x₁ :: t₁, x₂ :: t₂, h₁, h₂, hp, hties => by
    rcases List.pairwise_cons.mp h₁ with ⟨hx₁, ht₁⟩
    rcases List.pairwise_cons.mp h₂ with ⟨hx₂, ht₂⟩
    have hx12 : x₁ = x₂ := by
      by_contra hne
      have hmem1 : x₁ ∈ t₂ := by
        have h' : x₁ ∈ x₂ :: t₂ := hp.mem_iff.mp (List.mem_cons_self x₁ t₁)
        rcases List.mem_cons.mp h' with heq | hm
        · exact absurd heq hne
        · exact hm
      have hmem2 : x₂ ∈ t₁ := by
        have h' : x₂ ∈ x₁ :: t₁ := hp.symm.mem_iff.mp (List.mem_cons_self x₂ t₂)
        rcases List.mem_cons.mp h' with heq | hm
        · exact absurd heq.symm hne
        · exact hm
      have hle12 : strLe (key x₁) (key x₂) = true := hx₁ _ hmem2
      have hle21 : strLe (key x₂) (key x₁) = true := hx₂ _ hmem1
      exact hne (hties _ (List.mem_cons_self _ _) _ (List.mem_cons_of_mem _ hmem2)
        (strLe_antisymm hle12 hle21))
    subst hx12
    have htp : List.Perm t₁ t₂ := hp.cons_inv
    have : t₁ = t₂ :=
      sorted_perm_unique key t₁ t₂ ht₁ ht₂ htp fun a ha b hb =>
        hties a (List.mem_cons_of_mem _ ha) b (List.mem_cons_of_mem _ hb)
    rw [this]

/-- Sorting is permutation-invariant when elements with equal keys are equal. -/
theorem sortOn_congr_perm {α : Type} (key : α → String) {l₁ l₂ : List α}
    (hp : List.Perm l₁ l₂)
    (hties : ∀ a ∈ l₁, ∀ b ∈ l₁, key a = key b → a = b) :
    sortOn key l₁ = sortOn key l₂ := by
  refine sorted_perm_unique key _ _ (sortOn_pairwise key l₁) (sortOn_pairwise key l₂)
    ((sortOn_perm key l₁).trans (hp.trans (sortOn_perm key l₂).symm)) ?_
  intro a ha b hb
  exact hties a ((sortOn_perm key l₁).mem_iff.mp ha) b ((sortOn_perm key l₁).mem_iff.mp hb)

theorem ordInsert_map_keyed {α β : Type} (key : α → String) (f : α → β) (x : α) :
    ∀ l : List α,
      (ordInsert key x l).map (fun z => (key z, f z)) =
        ordInsert Prod.fst (key x, f x) (l.map fun z => (key z, f z))
  | [] => rfl
  | y :: ys => by
    simp only [ordInsert, List.map_cons]
    by_cases h : strLe (key x) (key y) = true
    · simp [h]
    · simp [h, ordInsert_map_keyed key f x ys]

/-- Sorting commutes with pairing every element with its key. -/
theorem sortOn_map_keyed {α β : Type} (key : α → String) (f : α → β) :
    ∀ l : List α,
      (sortOn key l).map (fun z => (key z, f z)) =
        sortOn Prod.fst (l.map fun z => (key z, f z))
  | [] => rfl
  | x :: xs => by
    simp only [sortOn, List.map_cons]
    rw [ordInsert_map_keyed, sortOn_map_keyed key f xs]

/-- A normalization pass `(sortOn key l).map f` is determined by the keyed
list `l.map fun x => (key x, f x)`. -/
theorem normSort_congr {α β : Type} (key : α → String) (f : α → β) {l₁ l₂ : List α}
    (h : (l₁.map fun x => (key x, f x)) = l₂.map fun x => (key x, f x)) :
    (sortOn key l₁).map f = (sortOn key l₂).map f := by
  have e₁ : (sortOn key l₁).map f =
      ((sortOn key l₁).map (fun z => (key z, f z))).map Prod.snd := by
    simp [List.map_map, Function.comp]
  have e₂ : (sortOn key l₂).map f =
      ((sortOn key l₂).map (fun z => (key z, f z))).map Prod.snd := by
    simp [List.map_map, Function.comp]
  rw [e₁, e₂, sortOn_map_keyed key f, sortOn_map_keyed key f, h]

/-- A normalization pass is invariant under permutation of the input when
the keys are distinct. -/
theorem normSort_perm {α β : Type} (key : α → String) (f : α → β) {l₁ l₂ : List α}
    (hp : List.Perm (l₁.map fun x => (key x, f x)) (l₂.map fun x => (key x, f x)))
    (hnd : (l₁.map key).Nodup) :
    (sortOn key l₁).map f = (sortOn key l₂).map f := by
  have e₁ : (sortOn key l₁).map f =
      ((sortOn key l₁).map (fun z => (key z, f z))).map Prod.snd := by
    simp [List.map_map, Function.comp]
  have e₂ : (sortOn key l₂).map f =
      ((sortOn key l₂).map (fun z => (key z, f z))).map Prod.snd := by
    simp [List.map_map, Function.comp]
  rw [e₁, e₂, sortOn_map_keyed key f, sortOn_map_keyed key f]
  refine congrArg _ (sortOn_congr_perm Prod.fst hp ?_)
  intro a ha b hb hk
  rcases List.mem_map.mp ha with ⟨a', ha', rfl⟩
  rcases List.mem_map.mp hb with ⟨b', hb', rfl⟩
  have : a' = b' := by
    have hfst : key a' = key b' := hk
    have := List.inj_on_of_nodup_map hnd
    exact this ha' hb' hfst
  rw [this]

/-! ## Facts about the Go-map model -/

theorem goMapGet_mem {α : Type} (key : α → String) (k : String) :
    ∀ {l : List α} {v : α}, goMapGet key k l = some v → v ∈ l ∧ key v = k
  | [], v, h => by cases h
  | x :: xs, v, h => by
    simp only [goMapGet] at h
    cases hrec : goMapGet key k xs with
    | some w =>
      rw [hrec] at h
      cases h
      have := goMapGet_mem key k hrec
      exact ⟨List.mem_cons_of_mem _ this.1, this.2⟩
    | none =>
      rw [hrec] at h
      by_cases hkx : key x = k
      · rw [if_pos hkx] at h
        cases h
        exact ⟨List.mem_cons_self _ _, hkx⟩
      · rw [if_neg hkx] at h
        cases h

theorem goMapGet_eq_none_iff {α : Type} (key : α → String) (k : String) :
    ∀ l : List α, goMapGet key k l = none ↔ k ∉ l.map key
  | [] => by simp [goMapGet]
  | x :: xs => by
    have ih := goMapGet_eq_none_iff key k xs
    simp only [goMapGet, List.map_cons, List.mem_cons]
    cases hrec : goMapGet key k xs with
    | some v =>
      have hm := goMapGet_mem key k hrec
      have hmem : k ∈ xs.map key := List.mem_map.mpr ⟨v, hm.1, hm.2⟩
      constructor
      · intro h; cases h
      · intro h; exact absurd (Or.inr hmem) h
    | none =>
      have hx : k ∉ xs.map key := ih.mp hrec
      by_cases hkx : key x = k
      · constructor
        · intro h
          rw [if_pos hkx] at h; cases h
        · intro h; exact absurd (Or.inl hkx.symm) h
      · constructor
        · intro _ hc
          rcases hc with heq | hmem
          · exact hkx heq.symm
          · exact hx hmem
        · intro _; rw [if_neg hkx]

theorem goMapGet_isSome_iff {α : Type} (key : α → String) (k : String) (l : List α) :
    (∃ v, goMapGet key k l = some v) ↔ k ∈ l.map key := by
  constructor
  · intro ⟨v, hv⟩
    by_contra hmem
    rw [(goMapGet_eq_none_iff key k l).mpr hmem] at hv
    cases hv
  · intro hmem
    cases hv : goMapGet key k l with
    | some v => exact ⟨v, rfl⟩
    | none => exact absurd ((goMapGet_eq_none_iff key k l).mp hv) (fun h => h hmem)

theorem mem_goMapKeys {α : Type} (key : α → String) :
    ∀ (l : List α) (k : String), k ∈ goMapKeys key l ↔ k ∈ l.map key
  | [], k => by simp [goMapKeys]
  | x :: xs, k => by
    have ih := mem_goMapKeys key xs k
    simp only [goMapKeys, List.map_cons, List.mem_cons, List.mem_filter,
      decide_eq_true_eq]
    by_cases hk : k = key x
    · simp [hk]
    · simp only [hk, false_or]
      constructor
      · intro h
        exact ih.mp h.1
      · intro h
        exact ⟨ih.mpr h, hk⟩

theorem goMapKeys_nodup {α : Type} (key : α → String) :
    ∀ l : List α, (goMapKeys key l).Nodup
  | [] => List.nodup_nil
  | x :: xs => by
    simp only [goMapKeys]
    refine List.nodup_cons.mpr ⟨?_, List.Nodup.filter _ (goMapKeys_nodup key xs)⟩
    intro hmem
    exact (by simpa using (List.mem_filter.mp hmem).2 : key x ≠ key x) rfl

theorem goMapKeys_congr {α : Type} (key : α → String) :
    ∀ {l₁ l₂ : List α}, l₁.map key = l₂.map key → goMapKeys key l₁ = goMapKeys key l₂
  | [], [], _ => rfl
  | [], _ :: _, h => by cases h
  | _ :: _, [], h => by cases h
  | x :: xs, y :: ys, h => by
    simp only [List.map_cons, List.cons.injEq] at h
    simp only [goMapKeys, h.1, goMapKeys_congr key h.2]

theorem forall₂_map_eq {α β : Type} {r : α → α → Prop} {f : α → β}
    (hf : ∀ a b, r a b → f a = f b) :
    ∀ {l₁ l₂ : List α}, List.Forall₂ r l₁ l₂ → l₁.map f = l₂.map f := by
  intro l₁ l₂ h
  induction h with
  | nil => rfl
  | cons hab _ ih => simp [hf _ _ hab, ih]

theorem goMapGet_forall₂ {α : Type} {r : α → α → Prop} {key : α → String}
    (hk : ∀ a b, r a b → key a = key b) :
    ∀ {l₁ l₂ : List α}, List.Forall₂ r l₁ l₂ → ∀ k,
      (goMapGet key k l₁ = none ∧ goMapGet key k l₂ = none) ∨
      (∃ a b, goMapGet key k l₁ = some a ∧ goMapGet key k l₂ = some b ∧ r a b) := by
  intro l₁ l₂ h
  induction h with
  | nil => exact fun k => Or.inl ⟨rfl, rfl⟩
  | @cons a b t₁ t₂ hab htail ih =>
    intro k
    rcases ih k with ⟨h1, h2⟩ | ⟨a', b', h1, h2, hr⟩
    · simp only [goMapGet, h1, h2]
      by_cases hka : key a = k
      · have hkb : key b = k := (hk a b hab) ▸ hka
        exact Or.inr ⟨a, b, by simp [hka], by simp [hkb], hab⟩
      · have hkb : ¬ key b = k := fun hc => hka ((hk a b hab) ▸ hc)
        exact Or.inl ⟨by simp [hka], by simp [hkb]⟩
    · exact Or.inr ⟨a', b', by simp [goMapGet, h1], by simp [goMapGet, h2], hr⟩

/-! ## Generic facts about `compareByName` -/

theorem compareByName_nil {α : Type} {r : α → α → Prop} (ot : String) (key : α → String)
    (qual : String → String) (eqF : α → α → Bool) (d1 d2 d3 : String)
    (hk : ∀ a b, r a b → key a = key b) (he : ∀ a b, r a b → eqF a b = true)
    {src tgt : List α} (h : List.Forall₂ r src tgt) :
    compareByName ot key qual eqF d1 d2 d3 src tgt = [] := by
  have hmap : src.map key = tgt.map key := forall₂_map_eq hk h
  simp only [compareByName]
  rw [List.append_eq_nil, List.append_eq_nil]
  refine ⟨⟨?_, ?_⟩, ?_⟩
  · refine List.filterMap_eq_nil_iff.mpr ?_
    intro k hkmem
    have : k ∈ tgt.map key := hmap ▸ (mem_goMapKeys key src k).mp hkmem
    rcases (goMapGet_isSome_iff key k tgt).mpr this with ⟨v, hv⟩
    simp [hv]
  · refine List.filterMap_eq_nil_iff.mpr ?_
    intro k hkmem
    have : k ∈ src.map key := hmap ▸ (mem_goMapKeys key tgt k).mp hkmem
    rcases (goMapGet_isSome_iff key k src).mpr this with ⟨v, hv⟩
    simp [hv]
  · refine List.filterMap_eq_nil_iff.mpr ?_
    intro k _
    rcases goMapGet_forall₂ hk h k with ⟨h1, h2⟩ | ⟨a, b, h1, h2, hr⟩
    · simp [h1, h2]
    · simp [h1, h2, he a b hr]

theorem mem_compareByName {α : Type} {d : Difference} (ot : String) (key : α → String)
    (qual : String → String) (eqF : α → α → Bool) (d1 d2 d3 : String)
    {src tgt : List α}
    (h : d ∈ compareByName ot key qual eqF d1 d2 d3 src tgt) :
    d.objectType = ot ∧ ∃ k, d.objectName = qual k ∧ (k ∈ src.map key ∨ k ∈ tgt.map key) := by
  simp only [compareByName, List.mem_append] at h
  rcases h with (h | h) | h
  · rcases List.mem_filterMap.mp h with ⟨k, hkmem, hf⟩
    split at hf
    · cases hf
    · cases hf
      exact ⟨rfl, k, rfl, Or.inl ((mem_goMapKeys key src k).mp hkmem)⟩
  · rcases List.mem_filterMap.mp h with ⟨k, hkmem, hf⟩
    split at hf
    · cases hf
    · cases hf
      exact ⟨rfl, k, rfl, Or.inr ((mem_goMapKeys key tgt k).mp hkmem)⟩
  · rcases List.mem_filterMap.mp h with ⟨k, hkmem, hf⟩
    split at hf
    · split at hf
      · cases hf
      · cases hf
        exact ⟨rfl, k, rfl, Or.inl ((mem_goMapKeys key src k).mp hkmem)⟩
    · cases hf

/-! ## Characterization of the equality predicates -/

theorem stringPointersEqual_iff (a b : Option String) :
    stringPointersEqual a b = true ↔ a = b := by
  cases a <;> cases b <;> simp [stringPointersEqual]

theorem countOcc_eq_count (l : List String) (k : String) : countOcc l k = l.count k := by
  simp [countOcc, List.count, List.countP_eq_length_filter]

/-- `stringSlicesEqualAsSet` is exactly multiset equality: order
irrelevant, multiplicity significant. -/
theorem stringSlicesEqualAsSet_iff_perm (a b : List String) :
    stringSlicesEqualAsSet a b = true ↔ List.Perm a b := by
  constructor
  · intro h
    simp only [stringSlicesEqualAsSet, Bool.and_eq_true, beq_iff_eq, List.all_eq_true] at h
    obtain ⟨hlen, hcnt⟩ := h
    have hsub : a.Subperm b := by
      rw [List.subperm_ext_iff]
      intro x hx
      have hc := hcnt x hx
      rw [countOcc_eq_count, countOcc_eq_count] at hc
      omega
    exact hsub.perm_of_length_le (le_of_eq hlen.symm)
  · intro h
    simp only [stringSlicesEqualAsSet, Bool.and_eq_true, beq_iff_eq, List.all_eq_true]
    refine ⟨h.length_eq, ?_⟩
    intro x _
    rw [countOcc_eq_count, countOcc_eq_count, h.count_eq]

theorem columnsEqual_iff (s t : Column) :
    columnsEqual s t = true ↔
      (s.dataType = t.dataType ∧ s.isNullable = t.isNullable ∧
       s.defaultValue = t.defaultValue ∧ s.isPrimaryKey = t.isPrimaryKey ∧
       s.isUnique = t.isUnique ∧ s.isAutoIncrement = t.isAutoIncrement ∧
       s.comment = t.comment) := by
  simp [columnsEqual, Bool.and_eq_true, stringPointersEqual_iff, and_assoc]

theorem constraintsEqual_iff (s t : Constraint) :
    constraintsEqual s t = true ↔
      (s.type = t.type ∧ List.Perm s.columns t.columns ∧
       s.referencedTable = t.referencedTable ∧
       List.Perm s.referencedColumn t.referencedColumn ∧
       s.checkExpression = t.checkExpression) := by
  simp [constraintsEqual, Bool.and_eq_true, stringSlicesEqualAsSet_iff_perm, and_assoc]

theorem indexesEqual_iff (s t : Index) :
    indexesEqual s t = true ↔
      (s.isUnique = t.isUnique ∧ s.type = t.type ∧ s.columns = t.columns) := by
  simp [indexesEqual, Bool.and_eq_true, and_assoc]

/-! ## What the Comparer is blind to.

Two schemas related by `schemaBlindEq` agree on every field any equality
predicate reads and on every object name, and may differ arbitrarily in
everything else: column `position`, constraint `onUpdate`/`onDelete` and
the order of constraint column lists, sequence `currentValue`, index
`tableName`, view `columns`, routine `parameters`, every `schema` field,
and the schema's own `name` and `databaseType`. -/

def columnBlindEq (a b : Column) : Prop :=
  a.name = b.name ∧ a.dataType = b.dataType ∧ a.isNullable = b.isNullable ∧
  a.defaultValue = b.defaultValue ∧ a.isPrimaryKey = b.isPrimaryKey ∧
  a.isUnique = b.isUnique ∧ a.isAutoIncrement = b.isAutoIncrement ∧ a.comment = b.comment

def constraintBlindEq (a b : Constraint) : Prop :=
  a.name = b.name ∧ a.type = b.type ∧ List.Perm a.columns b.columns ∧
  a.referencedTable = b.referencedTable ∧
  List.Perm a.referencedColumn b.referencedColumn ∧
  a.checkExpression = b.checkExpression

def indexBlindEq (a b : Index) : Prop :=
  a.name = b.name ∧ a.isUnique = b.isUnique ∧ a.type = b.type ∧ a.columns = b.columns

def tableBlindEq (a b : Table) : Prop :=
  a.name = b.name ∧ a.comment = b.comment ∧
  List.Forall₂ columnBlindEq a.columns b.columns ∧
  List.Forall₂ constraintBlindEq a.constraints b.constraints ∧
  List.Forall₂ indexBlindEq a.indexes b.indexes

def viewBlindEq (a b : View) : Prop := a.name = b.name ∧ a.definition = b.definition

def sequenceBlindEq (a b : Sequence) : Prop :=
  a.name = b.name ∧ a.startValue = b.startValue ∧ a.increment = b.increment ∧
  a.minValue = b.minValue ∧ a.maxValue = b.maxValue ∧ a.isCyclic = b.isCyclic

def procedureBlindEq (a b : Procedure) : Prop := a.name = b.name ∧ a.body = b.body

def functionBlindEq (a b : Func) : Prop :=
  a.name = b.name ∧ a.body = b.body ∧ a.returnType = b.returnType

def triggerBlindEq (a b : Trigger) : Prop :=
  a.name = b.name ∧ a.tableName = b.tableName ∧ a.event = b.event ∧
  a.timing = b.timing ∧ a.body = b.body

def schemaBlindEq (a b : Schema) : Prop :=
  List.Forall₂ tableBlindEq a.tables b.tables ∧
  List.Forall₂ viewBlindEq a.views b.views ∧
  List.Forall₂ indexBlindEq a.indexes b.indexes ∧
  List.Forall₂ sequenceBlindEq a.sequences b.sequences ∧
  List.Forall₂ procedureBlindEq a.procedures b.procedures ∧
  List.Forall₂ functionBlindEq a.functions b.functions ∧
  List.Forall₂ triggerBlindEq a.triggers b.triggers

instance (a b : Column) : Decidable (columnBlindEq a b) := by
  unfold columnBlindEq; infer_instance

instance (a b : Constraint) : Decidable (constraintBlindEq a b) := by
  unfold constraintBlindEq; infer_instance

instance (a b : Index) : Decidable (indexBlindEq a b) := by
  unfold indexBlindEq; infer_instance

instance (a b : Table) : Decidable (tableBlindEq a b) := by
  unfold tableBlindEq; infer_instance

instance (a b : View) : Decidable (viewBlindEq a b) := by
  unfold viewBlindEq; infer_instance

instance (a b : Sequence) : Decidable (sequenceBlindEq a b) := by
  unfold sequenceBlindEq; infer_instance

instance (a b : Procedure) : Decidable (procedureBlindEq a b) := by
  unfold procedureBlindEq; infer_instance

instance (a b : Func) : Decidable (functionBlindEq a b) := by
  unfold functionBlindEq; infer_instance

instance (a b : Trigger) : Decidable (triggerBlindEq a b) := by
  unfold triggerBlindEq; infer_instance

instance (a b : Schema) : Decidable (schemaBlindEq a b) := by
  unfold schemaBlindEq; infer_instance

theorem columnsEqual_of_blind {a b : Column} (h : columnBlindEq a b) :
    columnsEqual a b = true := by
  obtain ⟨_, h2, h3, h4, h5, h6, h7, h8⟩ := h
  exact (columnsEqual_iff a b).mpr ⟨h2, h3, h4, h5, h6, h7, h8⟩

theorem constraintsEqual_of_blind {a b : Constraint} (h : constraintBlindEq a b) :
    constraintsEqual a b = true := by
  obtain ⟨_, h2, h3, h4, h5, h6⟩ := h
  exact (constraintsEqual_iff a b).mpr ⟨h2, h3, h4, h5, h6⟩

theorem indexesEqual_of_blind {a b : Index} (h : indexBlindEq a b) :
    indexesEqual a b = true := by
  obtain ⟨_, h2, h3, h4⟩ := h
  exact (indexesEqual_iff a b).mpr ⟨h2, h3, h4⟩

theorem viewsEqual_of_blind {a b : View} (h : viewBlindEq a b) : viewsEqual a b = true := by
  simp [viewsEqual, h.2]

theorem sequencesEqual_of_blind {a b : Sequence} (h : sequenceBlindEq a b) :
    sequencesEqual a b = true := by
  obtain ⟨_, h2, h3, h4, h5, h6⟩ := h
  simp [sequencesEqual, h2, h3, h4, h5, h6]

theorem proceduresEqual_of_blind {a b : Procedure} (h : procedureBlindEq a b) :
    proceduresEqual a b = true := by
  simp [proceduresEqual, h.2]

theorem functionsEqual_of_blind {a b : Func} (h : functionBlindEq a b) :
    functionsEqual a b = true := by
  simp [functionsEqual, h.2.1, h.2.2]

theorem triggersEqual_of_blind {a b : Trigger} (h : triggerBlindEq a b) :
    triggersEqual a b = true := by
  obtain ⟨_, h2, h3, h4, h5⟩ := h
  simp [triggersEqual, h2, h3, h4, h5]

theorem columnBlindEq_refl (a : Column) : columnBlindEq a a :=
  ⟨rfl, rfl, rfl, rfl, rfl, rfl, rfl, rfl⟩

theorem constraintBlindEq_refl (a : Constraint) : constraintBlindEq a a :=
  ⟨rfl, rfl, List.Perm.refl _, rfl, List.Perm.refl _, rfl⟩

theorem indexBlindEq_refl (a : Index) : indexBlindEq a a := ⟨rfl, rfl, rfl, rfl⟩

theorem tableBlindEq_refl (a : Table) : tableBlindEq a a :=
  ⟨rfl, rfl,
   List.forall₂_same.mpr fun x _ => columnBlindEq_refl x,
   List.forall₂_same.mpr fun x _ => constraintBlindEq_refl x,
   List.forall₂_same.mpr fun x _ => indexBlindEq_refl x⟩

theorem schemaBlindEq_refl (s : Schema) : schemaBlindEq s s :=
  ⟨List.forall₂_same.mpr fun x _ => tableBlindEq_refl x,
   List.forall₂_same.mpr fun x _ => ⟨rfl, rfl⟩,
   List.forall₂_same.mpr fun x _ => indexBlindEq_refl x,
   List.forall₂_same.mpr fun x _ => ⟨rfl, rfl, rfl, rfl, rfl, rfl⟩,
   List.forall₂_same.mpr fun x _ => ⟨rfl, rfl⟩,
   List.forall₂_same.mpr fun x _ => ⟨rfl, rfl, rfl⟩,
   List.forall₂_same.mpr fun x _ => ⟨rfl, rfl, rfl, rfl, rfl⟩⟩

/-! ## Filtering and comparing preserve or consume the blind relations -/

theorem forall₂_filter {α : Type} {r : α → α → Prop} {p : α → Bool}
    (hp : ∀ a b, r a b → p a = p b) :
    ∀ {l₁ l₂ : List α}, List.Forall₂ r l₁ l₂ → List.Forall₂ r (l₁.filter p) (l₂.filter p) := by
  intro l₁ l₂ h
  induction h with
  | nil => exact List.Forall₂.nil
  | @cons a b t₁ t₂ hab _ ih =>
    by_cases hpa : p a = true
    · rw [List.filter_cons_of_pos hpa, List.filter_cons_of_pos ((hp a b hab) ▸ hpa)]
      exact List.Forall₂.cons hab ih
    · rw [List.filter_cons_of_neg hpa,
        List.filter_cons_of_neg (by rw [← hp a b hab]; exact hpa)]
      exact ih

theorem forall₂_map_rel {α β : Type} {r : α → α → Prop} {r' : β → β → Prop} {f g : α → β}
    (hf : ∀ a b, r a b → r' (f a) (g b)) :
    ∀ {l₁ l₂ : List α}, List.Forall₂ r l₁ l₂ →
      List.Forall₂ r' (l₁.map f) (l₂.map g) := by
  intro l₁ l₂ h
  induction h with
  | nil => exact List.Forall₂.nil
  | cons hab _ ih => exact List.Forall₂.cons (hf _ _ hab) ih

theorem filterTables_forall₂ (ic : IgnoreConfig) {l₁ l₂ : List Table}
    (h : List.Forall₂ tableBlindEq l₁ l₂) :
    List.Forall₂ tableBlindEq (filterTables ic l₁) (filterTables ic l₂) := by
  simp only [filterTables]
  refine forall₂_map_rel ?_ (forall₂_filter ?_ h)
  · intro a b hab
    obtain ⟨h1, h2, h3, h4, h5⟩ := hab
    exact ⟨h1, h2,
      forall₂_filter (fun x y hxy => by rw [hxy.1]) h3,
      forall₂_filter (fun x y hxy => by rw [hxy.1]) h4,
      forall₂_filter (fun x y hxy => by rw [hxy.1]) h5⟩
  · intro a b hab
    rw [hab.1]

theorem applyFilter_tables_forall₂ (c : Comparer) {l₁ l₂ : List Table}
    (h : List.Forall₂ tableBlindEq l₁ l₂) :
    List.Forall₂ tableBlindEq (applyFilter c filterTables l₁) (applyFilter c filterTables l₂) := by
  cases hic : c.ignoreConfig with
  | some ic => simpa only [applyFilter, hic] using filterTables_forall₂ ic h
  | none => simpa only [applyFilter, hic] using h

theorem applyFilter_forall₂ {α : Type} {r : α → α → Prop} (c : Comparer)
    (f : IgnoreConfig → List α → List α)
    (hpres : ∀ ic (l₁ l₂ : List α), List.Forall₂ r l₁ l₂ →
      List.Forall₂ r (f ic l₁) (f ic l₂))
    {l₁ l₂ : List α} (h : List.Forall₂ r l₁ l₂) :
    List.Forall₂ r (applyFilter c f l₁) (applyFilter c f l₂) := by
  cases hic : c.ignoreConfig with
  | some ic => simpa only [applyFilter, hic] using hpres ic _ _ h
  | none => simpa only [applyFilter, hic] using h

theorem compareTable_nil {s t : Table} (h : tableBlindEq s t) : compareTable s t = [] := by
  obtain ⟨hname, hcomment, hcols, hcons, hidx⟩ := h
  simp only [compareTable, compareColumns, compareConstraints, compareTableIndexes]
  rw [compareByName_nil _ _ _ _ _ _ _ (fun a b (hab : columnBlindEq a b) => hab.1)
        (fun a b hab => columnsEqual_of_blind hab) hcols,
      compareByName_nil _ _ _ _ _ _ _ (fun a b (hab : constraintBlindEq a b) => hab.1)
        (fun a b hab => constraintsEqual_of_blind hab) hcons,
      compareByName_nil _ _ _ _ _ _ _ (fun a b (hab : indexBlindEq a b) => hab.1)
        (fun a b hab => indexesEqual_of_blind hab) hidx]
  simp [hcomment]

theorem Comparer.compareTables_nil (c : Comparer) {src tgt : List Table}
    (h : List.Forall₂ tableBlindEq src tgt) : c.compareTables src tgt = [] := by
  have h' := applyFilter_tables_forall₂ c h
  simp only [Comparer.compareTables]
  have hmap : (applyFilter c filterTables src).map Table.name =
      (applyFilter c filterTables tgt).map Table.name :=
    forall₂_map_eq (fun a b hab => hab.1) h'
  rw [List.append_eq_nil, List.append_eq_nil]
  refine ⟨⟨?_, ?_⟩, ?_⟩
  · refine List.filterMap_eq_nil_iff.mpr ?_
    intro k hkmem
    have : k ∈ (applyFilter c filterTables tgt).map Table.name :=
      hmap ▸ (mem_goMapKeys Table.name _ k).mp hkmem
    rcases (goMapGet_isSome_iff Table.name k _).mpr this with ⟨v, hv⟩
    simp [hv]
  · refine List.filterMap_eq_nil_iff.mpr ?_
    intro k hkmem
    have : k ∈ (applyFilter c filterTables src).map Table.name :=
      hmap ▸ (mem_goMapKeys Table.name _ k).mp hkmem
    rcases (goMapGet_isSome_iff Table.name k _).mpr this with ⟨v, hv⟩
    simp [hv]
  · refine List.flatMap_eq_nil_iff.mpr ?_
    intro k _
    rcases goMapGet_forall₂ (fun a b (hab : tableBlindEq a b) => hab.1) h' k with
      ⟨h1, h2⟩ | ⟨a, b, h1, h2, hr⟩
    · simp [h1, h2]
    · simp [h1, h2, compareTable_nil hr]

theorem Comparer.compareViews_nil (c : Comparer) {src tgt : List View}
    (h : List.Forall₂ viewBlindEq src tgt) : c.compareViews src tgt = [] :=
  compareByName_nil _ _ _ _ _ _ _ (fun _ _ hab => hab.1)
    (fun _ _ hab => viewsEqual_of_blind hab)
    (applyFilter_forall₂ c filterViews
      (fun ic _ _ h' => by
        simp only [filterViews]
        exact forall₂_filter (fun a b hab => by rw [hab.1]) h') h)

theorem Comparer.compareIndexes_nil (c : Comparer) {src tgt : List Index}
    (h : List.Forall₂ indexBlindEq src tgt) : c.compareIndexes src tgt = [] :=
  compareByName_nil _ _ _ _ _ _ _ (fun _ _ hab => hab.1)
    (fun _ _ hab => indexesEqual_of_blind hab)
    (applyFilter_forall₂ c filterIndexes
      (fun ic _ _ h' => by
        simp only [filterIndexes]
        exact forall₂_filter (fun a b hab => by rw [hab.1]) h') h)

theorem Comparer.compareSequences_nil (c : Comparer) {src tgt : List Sequence}
    (h : List.Forall₂ sequenceBlindEq src tgt) : c.compareSequences src tgt = [] :=
  compareByName_nil _ _ _ _ _ _ _ (fun _ _ hab => hab.1)
    (fun _ _ hab => sequencesEqual_of_blind hab)
    (applyFilter_forall₂ c filterSequences
      (fun ic _ _ h' => by
        simp only [filterSequences]
        exact forall₂_filter (fun a b hab => by rw [hab.1]) h') h)

theorem Comparer.compareProcedures_nil (c : Comparer) {src tgt : List Procedure}
    (h : List.Forall₂ procedureBlindEq src tgt) : c.compareProcedures src tgt = [] :=
  compareByName_nil _ _ _ _ _ _ _ (fun _ _ hab => hab.1)
    (fun _ _ hab => proceduresEqual_of_blind hab)
    (applyFilter_forall₂ c filterProcedures
      (fun ic _ _ h' => by
        simp only [filterProcedures]
        exact forall₂_filter (fun a b hab => by rw [hab.1]) h') h)

theorem Comparer.compareFunctions_nil (c : Comparer) {src tgt : List Func}
    (h : List.Forall₂ functionBlindEq src tgt) : c.compareFunctions src tgt = [] :=
  compareByName_nil _ _ _ _ _ _ _ (fun _ _ hab => hab.1)
    (fun _ _ hab => functionsEqual_of_blind hab)
    (applyFilter_forall₂ c filterFunctions
      (fun ic _ _ h' => by
        simp only [filterFunctions]
        exact forall₂_filter (fun a b hab => by rw [hab.1]) h') h)

theorem Comparer.compareTriggers_nil (c : Comparer) {src tgt : List Trigger}
    (h : List.Forall₂ triggerBlindEq src tgt) : c.compareTriggers src tgt = [] :=
  compareByName_nil _ _ _ _ _ _ _ (fun _ _ hab => hab.1)
    (fun _ _ hab => triggersEqual_of_blind hab)
    (applyFilter_forall₂ c filterTriggers
      (fun ic _ _ h' => by
        simp only [filterTriggers]
        exact forall₂_filter (fun a b hab => by rw [hab.1]) h') h)

/-- The Comparer reports nothing for schemas that agree on everything its
equality predicates read. -/
theorem Compare_blind (c : Comparer) {A B : Schema} (h : schemaBlindEq A B) :
    (c.Compare A B).differences = [] := by
  obtain ⟨ht, hv, hi, hs, hp, hf, htr⟩ := h
  simp only [Comparer.Compare]
  rw [c.compareTables_nil ht, c.compareViews_nil hv, c.compareIndexes_nil hi,
    c.compareSequences_nil hs, c.compareProcedures_nil hp,
    c.compareFunctions_nil hf, c.compareTriggers_nil htr]
  rfl

/-! ## Fingerprint congruence machinery -/

/-- `l₂` is a permutation of `l₁` in which, additionally, every element has
been replaced by an `r`-related one. -/
def PermUpTo {α : Type} (r : α → α → Prop) (l₁ l₂ : List α) : Prop :=
  ∃ l, List.Perm l₁ l ∧ List.Forall₂ r l l₂

theorem forall₂_map_eq_mem {α β : Type} {r : α → α → Prop} {f : α → β} :
    ∀ {l₁ l₂ : List α}, List.Forall₂ r l₁ l₂ →
      (∀ a b, a ∈ l₁ → r a b → f a = f b) → l₁.map f = l₂.map f := by
  intro l₁ l₂ h
  induction h with
  | nil => intro _; rfl
  | @cons a b t₁ t₂ hab _ ih =>
    intro hf
    simp only [List.map_cons]
    rw [hf a b (List.mem_cons_self _ _) hab,
      ih fun x y hx hxy => hf x y (List.mem_cons_of_mem _ hx) hxy]

/-- Normalization is invariant when each element is replaced by one with the
same key and the same normalized image, in any order, provided keys are
distinct. -/
theorem normalize_permUpTo {α β : Type} (key : α → String) (f : α → β)
    {r : α → α → Prop} (hk : ∀ a b, r a b → key a = key b)
    {l₁ l₂ : List α} (h : PermUpTo r l₁ l₂)
    (hf : ∀ a b, a ∈ l₁ → r a b → f a = f b)
    (hnd : (l₁.map key).Nodup) :
    (sortOn key l₁).map f = (sortOn key l₂).map f := by
  obtain ⟨l, hp, hfa⟩ := h
  have keyedEq : (l.map fun x => (key x, f x)) = l₂.map fun x => (key x, f x) :=
    forall₂_map_eq_mem hfa fun a b ha hab => by
      rw [hk a b hab, hf a b (hp.symm.subset ha) hab]
  have hkeyed : List.Perm (l₁.map fun x => (key x, f x)) (l₂.map fun x => (key x, f x)) :=
    keyedEq ▸ hp.map _
  exact normSort_perm key f hkeyed hnd

/-- Normalization is invariant under permutation of equal elements with
distinct keys. -/
theorem normalize_perm_plain {α β : Type} (key : α → String) (f : α → β)
    {l₁ l₂ : List α} (h : List.Perm l₁ l₂) (hnd : (l₁.map key).Nodup) :
    (sortOn key l₁).map f = (sortOn key l₂).map f :=
  normSort_perm key f (h.map _) hnd

/-- Pointwise replacement by elements with equal keys and equal normalized
images preserves normalization, with no distinctness requirement. -/
theorem normalize_congr {α β : Type} (key : α → String) (f : α → β)
    {r : α → α → Prop} (hk : ∀ a b, r a b → key a = key b)
    {l₁ l₂ : List α} (h : List.Forall₂ r l₁ l₂)
    (hf : ∀ a b, a ∈ l₁ → r a b → f a = f b) :
    (sortOn key l₁).map f = (sortOn key l₂).map f :=
  normSort_congr key f
    (forall₂_map_eq_mem h fun a b ha hab => by rw [hk a b hab, hf a b ha hab])

/-- Sorting a list of strings is invariant under permutation: elements that
compare equal are equal. -/
theorem sortStrings_perm {l₁ l₂ : List String} (h : List.Perm l₁ l₂) :
    sortOn id l₁ = sortOn id l₂ :=
  sortOn_congr_perm id h fun _ _ _ _ hk => hk

/-! ## Digest format: 64 lowercase hex characters -/

theorem beBytes_length (k n : Nat) : (beBytes k n).length = k := by
  induction k generalizing n with
  | zero => rfl
  | succ k ih => simp [beBytes, ih]

theorem beBytes_lt {k n : Nat} : ∀ b ∈ beBytes k n, b < 256 := by
  induction k generalizing n with
  | zero => intro b hb; cases hb
  | succ k ih =>
    intro b hb
    rcases List.mem_cons.mp hb with heq | hm
    · rw [heq]; exact Nat.mod_lt _ (by omega)
    · exact ih b hm

theorem sha256_length (bs : List Nat) : (sha256 bs).length = 32 := by
  simp [sha256, List.flatMap_cons, List.flatMap_nil, beBytes_length]

theorem sha256_lt (bs : List Nat) : ∀ b ∈ sha256 bs, b < 256 := by
  intro b hb
  simp only [sha256, List.mem_flatMap] at hb
  obtain ⟨w, _, hbw⟩ := hb
  exact beBytes_lt b hbw

theorem hexDigitChar_mem {n : Nat} (h : n < 16) :
    hexDigitChar n ∈ "0123456789abcdef".toList := by
  interval_cases n <;> decide

theorem sha256hex_length (s : String) : (sha256hex s).length = 64 := by
  have hgen : ∀ l : List Nat, (l.flatMap byteHex).length = 2 * l.length := by
    intro l
    induction l with
    | nil => rfl
    | cons b t ih =>
      simp only [List.flatMap_cons, List.length_append, byteHex, List.length_cons,
        List.length_nil]
      rw [ih]
      omega
  show (String.mk ((sha256 (strBytes s)).flatMap byteHex)).length = 64
  have hlen : ((sha256 (strBytes s)).flatMap byteHex).length = 2 * 32 := by
    rw [hgen, sha256_length]
  simpa [String.length] using hlen

theorem sha256hex_lowercase_hex (s : String) :
    ∀ c ∈ (sha256hex s).toList, c ∈ "0123456789abcdef".toList := by
  intro c hc
  have hc' : c ∈ (sha256 (strBytes s)).flatMap byteHex := hc
  rcases List.mem_flatMap.mp hc' with ⟨b, hb, hcb⟩
  have hblt : b < 256 := sha256_lt _ b hb
  rcases List.mem_cons.mp hcb with heq | hm
  · rw [heq]; exact hexDigitChar_mem (by omega)
  · rcases List.mem_cons.mp hm with heq | hm'
    · rw [heq]; exact hexDigitChar_mem (by omega)
    · cases hm'

/-! ## Claim-specific schema relations -/

theorem forall₂_of_eq {α : Type} {r : α → α → Prop} {l₁ l₂ : List α}
    (h : l₁ = l₂) (hr : ∀ x, r x x) : List.Forall₂ r l₁ l₂ :=
  h ▸ List.forall₂_same.mpr fun x _ => hr x

/-- Deep equality except in column `position` values (also inside views). -/
def tablePosEq (a b : Table) : Prop :=
  a.schema = b.schema ∧ a.name = b.name ∧
  List.Forall₂ columnBlindEq a.columns b.columns ∧
  a.constraints = b.constraints ∧ a.indexes = b.indexes ∧ a.comment = b.comment

def viewPosEq (a b : View) : Prop :=
  a.schema = b.schema ∧ a.name = b.name ∧ a.definition = b.definition ∧
  List.Forall₂ columnBlindEq a.columns b.columns

def schemaPosEq (a b : Schema) : Prop :=
  a.name = b.name ∧ a.databaseType = b.databaseType ∧
  List.Forall₂ tablePosEq a.tables b.tables ∧
  List.Forall₂ viewPosEq a.views b.views ∧
  a.indexes = b.indexes ∧ a.sequences = b.sequences ∧ a.procedures = b.procedures ∧
  a.functions = b.functions ∧ a.triggers = b.triggers

instance (a b : Table) : Decidable (tablePosEq a b) := by unfold tablePosEq; infer_instance

instance (a b : View) : Decidable (viewPosEq a b) := by unfold viewPosEq; infer_instance

instance (a b : Schema) : Decidable (schemaPosEq a b) := by
  unfold schemaPosEq; infer_instance

theorem schemaPosEq_blind {A B : Schema} (h : schemaPosEq A B) : schemaBlindEq A B := by
  obtain ⟨_, _, ht, hv, hi, hs, hp, hf, htr⟩ := h
  refine ⟨?_, ?_, ?_, ?_, ?_, ?_, ?_⟩
  · refine ht.imp ?_
    intro a b hab
    obtain ⟨_, h2, h3, h4, h5, h6⟩ := hab
    exact ⟨h2, h6, h3, forall₂_of_eq h4 constraintBlindEq_refl,
      forall₂_of_eq h5 indexBlindEq_refl⟩
  · refine hv.imp ?_
    intro a b hab
    exact ⟨hab.2.1, hab.2.2.1⟩
  · exact forall₂_of_eq hi indexBlindEq_refl
  · exact forall₂_of_eq hs fun x => ⟨rfl, rfl, rfl, rfl, rfl, rfl⟩
  · exact forall₂_of_eq hp fun x => ⟨rfl, rfl⟩
  · exact forall₂_of_eq hf fun x => ⟨rfl, rfl, rfl⟩
  · exact forall₂_of_eq htr fun x => ⟨rfl, rfl, rfl, rfl, rfl⟩

/-- Deep equality except in sequence `currentValue` and constraint
`onUpdate`/`onDelete` values. -/
def constraintVolEq (a b : Constraint) : Prop :=
  a.name = b.name ∧ a.type = b.type ∧ a.columns = b.columns ∧
  a.referencedTable = b.referencedTable ∧ a.referencedColumn = b.referencedColumn ∧
  a.checkExpression = b.checkExpression

def sequenceVolEq (a b : Sequence) : Prop :=
  a.schema = b.schema ∧ a.name = b.name ∧ a.startValue = b.startValue ∧
  a.increment = b.increment ∧ a.minValue = b.minValue ∧ a.maxValue = b.maxValue ∧
  a.isCyclic = b.isCyclic

def tableVolEq (a b : Table) : Prop :=
  a.schema = b.schema ∧ a.name = b.name ∧ a.columns = b.columns ∧
  List.Forall₂ constraintVolEq a.constraints b.constraints ∧
  a.indexes = b.indexes ∧ a.comment = b.comment

def schemaVolEq (a b : Schema) : Prop :=
  a.name = b.name ∧ a.databaseType = b.databaseType ∧
  List.Forall₂ tableVolEq a.tables b.tables ∧
  a.views = b.views ∧ a.indexes = b.indexes ∧
  List.Forall₂ sequenceVolEq a.sequences b.sequences ∧
  a.procedures = b.procedures ∧ a.functions = b.functions ∧ a.triggers = b.triggers

instance (a b : Constraint) : Decidable (constraintVolEq a b) := by
  unfold constraintVolEq; infer_instance

instance (a b : Sequence) : Decidable (sequenceVolEq a b) := by
  unfold sequenceVolEq; infer_instance

instance (a b : Table) : Decidable (tableVolEq a b) := by unfold tableVolEq; infer_instance

instance (a b : Schema) : Decidable (schemaVolEq a b) := by
  unfold schemaVolEq; infer_instance

/-- The canonicalizer ignores sequence `currentValue` and constraint
`onUpdate`/`onDelete` entirely, for any comment setting. -/
theorem normalizeSchema_volEq (ic : Bool) {A B : Schema} (h : schemaVolEq A B) :
    normalizeSchema ic A = normalizeSchema ic B := by
  obtain ⟨_, _, ht, hv, hi, hs, hp, hf, htr⟩ := h
  have htab : normalizeTables ic A.tables = normalizeTables ic B.tables := by
    simp only [normalizeTables]
    refine normalize_congr Table.name _ (fun a b hab => hab.2.1) ht ?_
    intro a b _ hab
    obtain ⟨_, hname, hcols, hcons, hidx, hcom⟩ := hab
    have hc : normalizeConstraints a.constraints = normalizeConstraints b.constraints := by
      simp only [normalizeConstraints]
      refine normalize_congr Constraint.name _ (fun x y hxy => hxy.1) hcons ?_
      intro x y _ hxy
      obtain ⟨h1, h2, h3, h4, h5, h6⟩ := hxy
      simp [h1, h2, h3, h4, h5, h6]
    simp [hname, hcols, hidx, hcom, hc]
  have hseq : normalizeSequences A.sequences = normalizeSequences B.sequences := by
    simp only [normalizeSequences]
    refine normalize_congr Sequence.name _ (fun a b hab => hab.2.1) hs ?_
    intro a b _ hab
    obtain ⟨_, h2, h3, h4, h5, h6, h7⟩ := hab
    simp [h2, h3, h4, h5, h6, h7]
  simp [normalizeSchema, htab, hseq, hv, hi, hp, hf, htr]

/-- Deep equality except constraint `onUpdate`/`onDelete` values and the
order of constraint column lists. -/
def tableConEq (a b : Table) : Prop :=
  a.schema = b.schema ∧ a.name = b.name ∧ a.columns = b.columns ∧
  List.Forall₂ constraintBlindEq a.constraints b.constraints ∧
  a.indexes = b.indexes ∧ a.comment = b.comment

def schemaConEq (a b : Schema) : Prop :=
  a.name = b.name ∧ a.databaseType = b.databaseType ∧
  List.Forall₂ tableConEq a.tables b.tables ∧
  a.views = b.views ∧ a.indexes = b.indexes ∧ a.sequences = b.sequences ∧
  a.procedures = b.procedures ∧ a.functions = b.functions ∧ a.triggers = b.triggers

instance (a b : Table) : Decidable (tableConEq a b) := by unfold tableConEq; infer_instance

instance (a b : Schema) : Decidable (schemaConEq a b) := by
  unfold schemaConEq; infer_instance

theorem schemaConEq_blind {A B : Schema} (h : schemaConEq A B) : schemaBlindEq A B := by
  obtain ⟨_, _, ht, hv, hi, hs, hp, hf, htr⟩ := h
  refine ⟨?_, ?_, ?_, ?_, ?_, ?_, ?_⟩
  · refine ht.imp ?_
    intro a b hab
    obtain ⟨_, h2, h3, h4, h5, h6⟩ := hab
    exact ⟨h2, h6, forall₂_of_eq h3 columnBlindEq_refl, h4,
      forall₂_of_eq h5 indexBlindEq_refl⟩
  · exact forall₂_of_eq hv fun x => ⟨rfl, rfl⟩
  · exact forall₂_of_eq hi indexBlindEq_refl
  · exact forall₂_of_eq hs fun x => ⟨rfl, rfl, rfl, rfl, rfl, rfl⟩
  · exact forall₂_of_eq hp fun x => ⟨rfl, rfl⟩
  · exact forall₂_of_eq hf fun x => ⟨rfl, rfl, rfl⟩
  · exact forall₂_of_eq htr fun x => ⟨rfl, rfl, rfl, rfl, rfl⟩

/-- Deep equality up to permutation: every collection may be reordered,
index column lists may be reordered, and routine parameter lists may be
reordered; all scalar fields agree. -/
def indexPermEq (a b : Index) : Prop :=
  a.name = b.name ∧ a.tableName = b.tableName ∧ List.Perm a.columns b.columns ∧
  a.isUnique = b.isUnique ∧ a.type = b.type

def tablePermEq (a b : Table) : Prop :=
  a.schema = b.schema ∧ a.name = b.name ∧ List.Perm a.columns b.columns ∧
  List.Perm a.constraints b.constraints ∧ PermUpTo indexPermEq a.indexes b.indexes ∧
  a.comment = b.comment

def procedurePermEq (a b : Procedure) : Prop :=
  a.schema = b.schema ∧ a.name = b.name ∧ List.Perm a.parameters b.parameters ∧
  a.body = b.body

def functionPermEq (a b : Func) : Prop :=
  a.schema = b.schema ∧ a.name = b.name ∧ List.Perm a.parameters b.parameters ∧
  a.returnType = b.returnType ∧ a.body = b.body

def schemaPermEq (a b : Schema) : Prop :=
  a.name = b.name ∧ a.databaseType = b.databaseType ∧
  PermUpTo tablePermEq a.tables b.tables ∧
  List.Perm a.views b.views ∧
  PermUpTo indexPermEq a.indexes b.indexes ∧
  List.Perm a.sequences b.sequences ∧
  PermUpTo procedurePermEq a.procedures b.procedures ∧
  PermUpTo functionPermEq a.functions b.functions ∧
  List.Perm a.triggers b.triggers

/-- Object names are unique within every collection — the data-model
invariant the spec assumes of well-formed snapshots. -/
def schemaNamesNodup (s : Schema) : Prop :=
  (s.tables.map Table.name).Nodup ∧ (s.views.map View.name).Nodup ∧
  (s.indexes.map Index.name).Nodup ∧ (s.sequences.map Sequence.name).Nodup ∧
  (s.procedures.map Procedure.name).Nodup ∧ (s.functions.map Func.name).Nodup ∧
  (s.triggers.map Trigger.name).Nodup ∧
  (∀ t ∈ s.tables, (t.columns.map Column.name).Nodup ∧
    (t.constraints.map Constraint.name).Nodup ∧ (t.indexes.map Index.name).Nodup) ∧
  (∀ p ∈ s.procedures, (p.parameters.map Parameter.name).Nodup) ∧
  (∀ f ∈ s.functions, (f.parameters.map Parameter.name).Nodup)

instance (s : Schema) : Decidable (schemaNamesNodup s) := by
  unfold schemaNamesNodup; infer_instance

theorem indexPermEq_refl (a : Index) : indexPermEq a a :=
  ⟨rfl, rfl, List.Perm.refl _, rfl, rfl⟩

theorem permUpTo_refl {α : Type} {r : α → α → Prop} (hr : ∀ x, r x x) (l : List α) :
    PermUpTo r l l :=
  ⟨l, List.Perm.refl _, List.forall₂_same.mpr fun x _ => hr x⟩

theorem permUpTo_of_perm {α : Type} {r : α → α → Prop} (hr : ∀ x, r x x)
    {l₁ l₂ : List α} (h : List.Perm l₁ l₂) : PermUpTo r l₁ l₂ :=
  ⟨l₂, h, List.forall₂_same.mpr fun x _ => hr x⟩

/-- The canonicalized representation is invariant under permutation of all
collections (with distinct names), index column order, and parameter order. -/
theorem normalizeSchema_permEq (ic : Bool) {A B : Schema} (h : schemaPermEq A B)
    (hnd : schemaNamesNodup A) : normalizeSchema ic A = normalizeSchema ic B := by
  obtain ⟨_, _, ht, hv, hi, hs, hp, hf, htr⟩ := h
  obtain ⟨nt, nv, ni, ns, np, nf, ntr, ntab, nproc, nfun⟩ := hnd
  have htab : normalizeTables ic A.tables = normalizeTables ic B.tables := by
    simp only [normalizeTables]
    refine normalize_permUpTo Table.name _ (fun a b hab => hab.2.1) ht ?_ nt
    intro a b ha hab
    obtain ⟨_, hname, hcols, hcons, hidx, hcom⟩ := hab
    obtain ⟨nca, ncons, nidx⟩ := ntab a ha
    have h1 : normalizeColumns ic a.columns = normalizeColumns ic b.columns := by
      simp only [normalizeColumns]
      exact normalize_perm_plain Column.name _ hcols nca
    have h2 : normalizeConstraints a.constraints = normalizeConstraints b.constraints := by
      simp only [normalizeConstraints]
      exact normalize_perm_plain Constraint.name _ hcons ncons
    have h3 : normalizeTableIndexes a.indexes = normalizeTableIndexes b.indexes := by
      simp only [normalizeTableIndexes]
      refine normalize_permUpTo Index.name _ (fun x y hxy => hxy.1) hidx ?_ nidx
      intro x y _ hxy
      obtain ⟨hn, _, hcolsx, hu, hty⟩ := hxy
      simp [hn, hu, hty, sortStrings_perm hcolsx]
    simp [hname, hcom, h1, h2, h3]
  have hvw : normalizeViews A.views = normalizeViews B.views := by
    simp only [normalizeViews]
    exact normalize_perm_plain View.name _ hv nv
  have hix : normalizeIndexes A.indexes = normalizeIndexes B.indexes := by
    simp only [normalizeIndexes]
    refine normalize_permUpTo Index.name _ (fun x y hxy => hxy.1) hi ?_ ni
    intro x y _ hxy
    obtain ⟨hn, htb, hcolsx, hu, hty⟩ := hxy
    simp [hn, htb, hu, hty, sortStrings_perm hcolsx]
  have hsq : normalizeSequences A.sequences = normalizeSequences B.sequences := by
    simp only [normalizeSequences]
    exact normalize_perm_plain Sequence.name _ hs ns
  have hpr : normalizeProcedures A.procedures = normalizeProcedures B.procedures := by
    simp only [normalizeProcedures]
    refine normalize_permUpTo Procedure.name _ (fun a b hab => hab.2.1) hp ?_ np
    intro a b ha hab
    obtain ⟨_, hname, hparams, hbody⟩ := hab
    have h1 : normalizeParameters a.parameters = normalizeParameters b.parameters := by
      simp only [normalizeParameters]
      exact normalize_perm_plain Parameter.name _ hparams (nproc a ha)
    simp [hname, hbody, h1]
  have hfn : normalizeFunctions A.functions = normalizeFunctions B.functions := by
    simp only [normalizeFunctions]
    refine normalize_permUpTo Func.name _ (fun a b hab => hab.2.1) hf ?_ nf
    intro a b ha hab
    obtain ⟨_, hname, hparams, hret, hbody⟩ := hab
    have h1 : normalizeParameters a.parameters = normalizeParameters b.parameters := by
      simp only [normalizeParameters]
      exact normalize_perm_plain Parameter.name _ hparams (nfun a ha)
    simp [hname, hbody, hret, h1]
  have htg : normalizeTriggers A.triggers = normalizeTriggers B.triggers := by
    simp only [normalizeTriggers]
    exact normalize_perm_plain Trigger.name _ htr ntr
  simp [normalizeSchema, htab, hvw, hix, hsq, hpr, hfn, htg]

/-! ## A single modified object among otherwise-identical collections -/

theorem goMapGet_middle_ne {α : Type} (key : α → String) {u v : α} (huv : key u = key v)
    {k : String} (hk : k ≠ key u) :
    ∀ pre post : List α,
      goMapGet key k (pre ++ u :: post) = goMapGet key k (pre ++ v :: post)
  | [], post => by
    simp only [List.nil_append, goMapGet]
    cases goMapGet key k post with
    | some w => rfl
    | none =>
      have h1 : ¬ key u = k := fun h => hk h.symm
      have h2 : ¬ key v = k := fun h => hk (huv.trans h).symm
      rw [if_neg h1, if_neg h2]
  | p :: pre, post => by
    simp only [List.cons_append, goMapGet, List.append_eq]
    rw [goMapGet_middle_ne key huv hk pre post]

theorem goMapGet_middle_self {α : Type} (key : α → String) {u : α} :
    ∀ (pre post : List α), key u ∉ post.map key →
      goMapGet key (key u) (pre ++ u :: post) = some u
  | [], post, hpost => by
    simp only [List.nil_append, goMapGet]
    rw [(goMapGet_eq_none_iff key (key u) post).mpr hpost]
    simp
  | p :: pre, post, hpost => by
    simp only [List.cons_append, goMapGet, List.append_eq]
    rw [goMapGet_middle_self key pre post hpost]

theorem nodup_middle_not_post {α : Type} (key : α → String) {pre post : List α} {u : α}
    (hnodup : ((pre ++ u :: post).map key).Nodup) : key u ∉ post.map key := by
  rw [List.map_append, List.map_cons] at hnodup
  have := (List.nodup_append.mp hnodup).2.1
  exact (List.nodup_cons.mp this).1

theorem filterMap_single {α β : Type} {l : List α} {f : α → Option β} (k₀ : α) {b : β}
    (hnd : l.Nodup) (hk : k₀ ∈ l) (hf : f k₀ = some b)
    (ho : ∀ x ∈ l, x ≠ k₀ → f x = none) : l.filterMap f = [b] := by
  induction l with
  | nil => cases hk
  | cons a t ih =>
    rcases List.mem_cons.mp hk with heq | hm
    · subst heq
      have ht : t.filterMap f = [] := by
        refine List.filterMap_eq_nil_iff.mpr ?_
        intro x hx
        exact ho x (List.mem_cons_of_mem _ hx)
          (fun he => (List.nodup_cons.mp hnd).1 (he ▸ hx))
      rw [List.filterMap_cons, hf, ht]
    · have ha : f a = none :=
        ho a (List.mem_cons_self _ _) (fun he => (List.nodup_cons.mp hnd).1 (he ▸ hm))
      rw [List.filterMap_cons, ha]
      exact ih (List.nodup_cons.mp hnd).2 hm
        (fun x hx hne => ho x (List.mem_cons_of_mem _ hx) hne)

theorem flatMap_single {α β : Type} {l : List α} {f : α → List β} (k₀ : α)
    (hnd : l.Nodup) (hk : k₀ ∈ l)
    (ho : ∀ x ∈ l, x ≠ k₀ → f x = []) : l.flatMap f = f k₀ := by
  induction l with
  | nil => cases hk
  | cons a t ih =>
    rcases List.mem_cons.mp hk with heq | hm
    · subst heq
      have ht : t.flatMap f = [] := by
        refine List.flatMap_eq_nil_iff.mpr ?_
        intro x hx
        exact ho x (List.mem_cons_of_mem _ hx)
          (fun he => (List.nodup_cons.mp hnd).1 (he ▸ hx))
      simp [List.flatMap_cons, ht]
    · have ha : f a = [] :=
        ho a (List.mem_cons_self _ _) (fun he => (List.nodup_cons.mp hnd).1 (he ▸ hm))
      simp only [List.flatMap_cons, ha, List.nil_append]
      exact ih (List.nodup_cons.mp hnd).2 hm
        (fun x hx hne => ho x (List.mem_cons_of_mem _ hx) hne)

/-- `compareByName` on two collections that are identical except that the
element at one position was replaced name-preservingly by an unequal one
reports exactly one `MODIFIED` difference. -/
theorem compareByName_single {α : Type} (ot : String) (key : α → String)
    (qual : String → String) (eqF : α → α → Bool) (d1 d2 d3 : String)
    {pre post : List α} {u v : α}
    (huv : key u = key v)
    (hnodup : ((pre ++ u :: post).map key).Nodup)
    (hrefl : ∀ x, eqF x x = true)
    (hne : eqF u v = false) :
    compareByName ot key qual eqF d1 d2 d3 (pre ++ u :: post) (pre ++ v :: post) =
      [⟨"MODIFIED", ot, qual (key u), d3⟩] := by
  have hmap : (pre ++ u :: post).map key = (pre ++ v :: post).map key := by
    simp [List.map_append, huv]
  have hupost : key u ∉ post.map key := nodup_middle_not_post key hnodup
  have hvpost : key v ∉ post.map key := huv ▸ hupost
  have hgetu : goMapGet key (key u) (pre ++ u :: post) = some u :=
    goMapGet_middle_self key pre post hupost
  have hgetv : goMapGet key (key u) (pre ++ v :: post) = some v := by
    rw [huv]
    exact goMapGet_middle_self key pre post hvpost
  simp only [compareByName]
  have hrem : ((goMapKeys key (pre ++ u :: post)).filterMap fun k =>
      match goMapGet key k (pre ++ v :: post) with
      | some _ => none
      | none => some (Difference.mk "REMOVED" ot (qual k) d1)) = [] := by
    refine List.filterMap_eq_nil_iff.mpr ?_
    intro k hkmem
    have : k ∈ (pre ++ v :: post).map key :=
      hmap ▸ (mem_goMapKeys key _ k).mp hkmem
    rcases (goMapGet_isSome_iff key k _).mpr this with ⟨w, hw⟩
    simp [hw]
  have hadd : ((goMapKeys key (pre ++ v :: post)).filterMap fun k =>
      match goMapGet key k (pre ++ u :: post) with
      | some _ => none
      | none => some (Difference.mk "ADDED" ot (qual k) d2)) = [] := by
    refine List.filterMap_eq_nil_iff.mpr ?_
    intro k hkmem
    have : k ∈ (pre ++ u :: post).map key :=
      hmap ▸ (mem_goMapKeys key _ k).mp hkmem
    rcases (goMapGet_isSome_iff key k _).mpr this with ⟨w, hw⟩
    simp [hw]
  have hmod : ((goMapKeys key (pre ++ u :: post)).filterMap fun k =>
      match goMapGet key k (pre ++ u :: post), goMapGet key k (pre ++ v :: post) with
      | some sv, some tv =>
        if eqF sv tv = true then none
        else some (Difference.mk "MODIFIED" ot (qual k) d3)
      | _, _ => none) = [Difference.mk "MODIFIED" ot (qual (key u)) d3] := by
    refine filterMap_single (key u) (goMapKeys_nodup key _) ?_ ?_ ?_
    · exact (mem_goMapKeys key _ (key u)).mpr
        (by simp [List.map_append])
    · rw [hgetu, hgetv]
      simp [hne]
    · intro k _ hkne
      rw [← goMapGet_middle_ne key huv hkne pre post]
      cases hg : goMapGet key k (pre ++ u :: post) with
      | some w => simp [hrefl w]
      | none => simp
  rw [hrem, hadd, hmod]
  rfl

/-! ## Correctness of wildcard-to-regex compilation and matching -/

/-- The token a single wildcard-pattern character compiles to. -/
def charTok (c : Char) : RTok :=
  if c = '*' then RTok.star else if c = '?' then RTok.anyOne else RTok.lit c

theorem convertCharToRegex_ne_nil (c : Char) : convertCharToRegex c ≠ [] := by
  unfold convertCharToRegex
  split_ifs <;> simp

theorem convert_flatMap_eq_nil {cs : List Char}
    (h : cs.flatMap convertCharToRegex = []) : cs = [] := by
  cases cs with
  | nil => rfl
  | cons c cs =>
    rw [List.flatMap_cons, List.append_eq_nil] at h
    exact absurd h.1 (convertCharToRegex_ne_nil c)

theorem convert_flatMap_head_ne_star :
    ∀ (cs : List Char) (d : Char) (tl : List Char),
      cs.flatMap convertCharToRegex = d :: tl → d ≠ '*' := by
  intro cs d tl h
  cases cs with
  | nil => cases h
  | cons c cs =>
    rw [List.flatMap_cons] at h
    by_cases h1 : c = '*'
    · subst h1
      have : ('.' :: '*' :: cs.flatMap convertCharToRegex) = d :: tl := h
      cases this; decide
    · by_cases h2 : c = '?'
      · subst h2
        have : ('.' :: cs.flatMap convertCharToRegex) = d :: tl := h
        cases this; decide
      · by_cases h3 : c ∈ regexSpecials
        · have : ('\\' :: c :: cs.flatMap convertCharToRegex) = d :: tl := by
            simpa [convertCharToRegex, h1, h2, h3] using h
          cases this; decide
        · have : (c :: cs.flatMap convertCharToRegex) = d :: tl := by
            simpa [convertCharToRegex, h1, h2, h3] using h
          cases this
          intro hc
          exact h3 (by rw [hc]; decide)

theorem lexBody_convert : ∀ cs : List Char,
    lexRegexBody (cs.flatMap convertCharToRegex) = some (cs.map charTok)
  | [] => rfl
  | c :: cs => by
    have ih := lexBody_convert cs
    rw [List.flatMap_cons]
    by_cases h1 : c = '*'
    · subst h1
      show lexRegexBody ('.' :: '*' :: cs.flatMap convertCharToRegex) = _
      have heval : lexRegexBody ('.' :: '*' :: cs.flatMap convertCharToRegex)
          = (lexRegexBody (cs.flatMap convertCharToRegex)).map (RTok.star :: ·) := rfl
      rw [heval, ih]
      simp [charTok]
    · by_cases h2 : c = '?'
      · subst h2
        show lexRegexBody ('.' :: cs.flatMap convertCharToRegex) = _
        cases hfm : cs.flatMap convertCharToRegex with
        | nil =>
          have : cs = [] := convert_flatMap_eq_nil hfm
          subst this
          simp [charTok, lexRegexBody]
        | cons e rest2 =>
          have he : e ≠ '*' := convert_flatMap_head_ne_star cs e rest2 hfm
          rw [hfm] at ih
          have heval : lexRegexBody ('.' :: e :: rest2)
              = (lexRegexBody (e :: rest2)).map (RTok.anyOne :: ·) := by
            simp [lexRegexBody, he]
          rw [heval, ih]
          simp [charTok]
      · by_cases h3 : c ∈ regexSpecials
        · have hconv : convertCharToRegex c = ['\\', c] := by
            simp [convertCharToRegex, h1, h2, h3]
          rw [hconv]
          show lexRegexBody ('\\' :: c :: cs.flatMap convertCharToRegex) = _
          have heval : lexRegexBody ('\\' :: c :: cs.flatMap convertCharToRegex)
              = if c ∈ regexSpecials then
                  (lexRegexBody (cs.flatMap convertCharToRegex)).map (RTok.lit c :: ·)
                else none := rfl
          rw [heval, if_pos h3, ih]
          have hc : charTok c = RTok.lit c := by simp [charTok, h1, h2]
          simp [hc]
        · have hconv : convertCharToRegex c = [c] := by
            simp [convertCharToRegex, h1, h2, h3]
          rw [hconv]
          show lexRegexBody (c :: cs.flatMap convertCharToRegex) = _
          have hb : c ≠ '\\' := fun hc => h3 (by rw [hc]; decide)
          have hd : c ≠ '.' := fun hc => h3 (by rw [hc]; decide)
          have heval : lexRegexBody (c :: cs.flatMap convertCharToRegex)
              = (lexRegexBody (cs.flatMap convertCharToRegex)).map (RTok.lit c :: ·) := by
            simp [lexRegexBody, hb, hd, h3]
          rw [heval, ih]
          have hc : charTok c = RTok.lit c := by simp [charTok, h1, h2]
          simp [hc]

theorem regexpCompile_convert (p : String) :
    regexpCompile (convertWildcardToRegex p) = some (p.toList.map charTok) := by
  have h1 : (convertWildcardToRegex p).toList
      = '^' :: (p.toList.flatMap convertCharToRegex ++ ['$']) := rfl
  unfold regexpCompile
  rw [h1]
  show (if (p.toList.flatMap convertCharToRegex ++ ['$']).getLast? = some '$' then
      lexRegexBody (p.toList.flatMap convertCharToRegex ++ ['$']).dropLast
    else none) = _
  rw [List.getLast?_concat, if_pos rfl, List.dropLast_concat]
  exact lexBody_convert p.toList

/-- Derivations of the compiled matcher: a token list consumes the whole
character list. -/
inductive TokMatch : List RTok → List Char → Prop where
  | nil : TokMatch [] []
  | lit (c : Char) (p : List RTok) (n : List Char) :
      TokMatch p n → TokMatch (RTok.lit c :: p) (c :: n)
  | one (c : Char) (p : List RTok) (n : List Char) :
      c ≠ '\n' → TokMatch p n → TokMatch (RTok.anyOne :: p) (c :: n)
  | starSkip (p : List RTok) (n : List Char) :
      TokMatch p n → TokMatch (RTok.star :: p) n
  | starCons (c : Char) (p : List RTok) (n : List Char) :
      c ≠ '\n' → TokMatch (RTok.star :: p) n → TokMatch (RTok.star :: p) (c :: n)

/-- The specification of wildcard matching as the program implements it:
literal characters match verbatim (a literal newline in the pattern does
match a newline in the name), `?` matches exactly one non-newline
character, `*` matches any run of zero or more non-newline characters —
the regexp `.` and `.*` are compiled with the `s` flag off — and the whole
name must be consumed (full anchoring). -/
inductive GlobMatch : List Char → List Char → Prop where
  | nil : GlobMatch [] []
  | lit (c : Char) (p : List Char) (n : List Char) :
      c ≠ '*' → c ≠ '?' → GlobMatch p n → GlobMatch (c :: p) (c :: n)
  | one (c : Char) (p : List Char) (n : List Char) :
      c ≠ '\n' → GlobMatch p n → GlobMatch ('?' :: p) (c :: n)
  | starSkip (p : List Char) (n : List Char) :
      GlobMatch p n → GlobMatch ('*' :: p) n
  | starCons (c : Char) (p : List Char) (n : List Char) :
      c ≠ '\n' → GlobMatch ('*' :: p) n → GlobMatch ('*' :: p) (c :: n)

theorem matchToksAux_sound :
    ∀ (fuel : Nat) (ts : List RTok) (cs : List Char),
      matchToksAux fuel ts cs = true → TokMatch ts cs := by
  intro fuel
  induction fuel with
  | zero => intro ts cs h; cases h
  | succ fuel ih =>
    intro ts cs h
    match ts, cs with
    | [], [] => exact TokMatch.nil
    | [], _ :: _ => simp [matchToksAux] at h
    | RTok.lit c :: ts, [] => simp [matchToksAux] at h
    | RTok.lit c :: ts, d :: ds =>
      simp only [matchToksAux, Bool.and_eq_true, beq_iff_eq] at h
      exact h.1 ▸ TokMatch.lit c ts ds (ih ts ds h.2)
    | RTok.anyOne :: ts, [] => simp [matchToksAux] at h
    | RTok.anyOne :: ts, d :: ds =>
      simp only [matchToksAux, Bool.and_eq_true, bne_iff_ne, ne_eq] at h
      exact TokMatch.one d ts ds h.1 (ih ts ds h.2)
    | RTok.star :: ts, [] =>
      simp only [matchToksAux] at h
      exact TokMatch.starSkip ts [] (ih ts [] h)
    | RTok.star :: ts, d :: ds =>
      simp only [matchToksAux, Bool.or_eq_true, Bool.and_eq_true, bne_iff_ne, ne_eq] at h
      rcases h with h | ⟨hne, h⟩
      · exact TokMatch.starSkip ts (d :: ds) (ih ts (d :: ds) h)
      · exact TokMatch.starCons d ts ds hne (ih (RTok.star :: ts) ds h)

theorem matchToksAux_complete {ts : List RTok} {cs : List Char} (h : TokMatch ts cs) :
    ∀ fuel : Nat, ts.length + cs.length < fuel → matchToksAux fuel ts cs = true := by
  induction h with
  | nil =>
    intro fuel hf
    cases fuel with
    | zero => omega
    | succ fuel => rfl
  | lit c p n _ ih =>
    intro fuel hf
    cases fuel with
    | zero => omega
    | succ fuel =>
      simp only [matchToksAux, Bool.and_eq_true, beq_self_eq_true, true_and]
      refine ih fuel ?_
      simp only [List.length_cons] at hf
      omega
  | one c p n hne _ ih =>
    intro fuel hf
    cases fuel with
    | zero => omega
    | succ fuel =>
      simp only [matchToksAux, Bool.and_eq_true, bne_iff_ne, ne_eq]
      refine ⟨hne, ih fuel ?_⟩
      simp only [List.length_cons] at hf
      omega
  | starSkip p n _ ih =>
    intro fuel hf
    cases fuel with
    | zero => omega
    | succ fuel =>
      cases n with
      | nil =>
        simp only [matchToksAux]
        refine ih fuel ?_
        simp only [List.length_cons] at hf
        omega
      | cons d ds =>
        simp only [matchToksAux, Bool.or_eq_true]
        refine Or.inl (ih fuel ?_)
        simp only [List.length_cons] at hf ⊢
        omega
  | starCons c p n hne _ ih =>
    intro fuel hf
    cases fuel with
    | zero => omega
    | succ fuel =>
      simp only [matchToksAux, Bool.or_eq_true, Bool.and_eq_true, bne_iff_ne, ne_eq]
      refine Or.inr ⟨hne, ih fuel ?_⟩
      simp only [List.length_cons] at hf ⊢
      omega

theorem matchToks_iff (ts : List RTok) (cs : List Char) :
    matchToks ts cs = true ↔ TokMatch ts cs :=
  ⟨matchToksAux_sound _ ts cs,
   fun h => matchToksAux_complete h _ (by omega)⟩

theorem tokMatch_to_glob :
    ∀ {ts : List RTok} {n : List Char}, TokMatch ts n →
      ∀ p : List Char, ts = p.map charTok → GlobMatch p n := by
  intro ts n h
  induction h with
  | nil =>
    intro p hp
    cases p with
    | nil => exact GlobMatch.nil
    | cons c p => cases hp
  | lit c tp tn _ ih =>
    intro p hp
    cases p with
    | nil => cases hp
    | cons c0 p =>
      simp only [List.map_cons, List.cons.injEq] at hp
      by_cases h1 : c0 = '*'
      · rw [h1] at hp; simp [charTok] at hp
      · by_cases h2 : c0 = '?'
        · rw [h2] at hp; simp [charTok] at hp
        · have hct : charTok c0 = RTok.lit c0 := by simp [charTok, h1, h2]
          rw [hct] at hp
          have hc : c = c0 := by
            have := hp.1
            injection this
          subst hc
          exact GlobMatch.lit c p tn h1 h2 (ih p hp.2)
  | one c tp tn hne _ ih =>
    intro p hp
    cases p with
    | nil => cases hp
    | cons c0 p =>
      simp only [List.map_cons, List.cons.injEq] at hp
      have hc0 : c0 = '?' := by
        by_cases h1 : c0 = '*'
        · rw [h1] at hp; simp [charTok] at hp
        · by_cases h2 : c0 = '?'
          · exact h2
          · have : charTok c0 = RTok.lit c0 := by simp [charTok, h1, h2]
            rw [this] at hp
            cases hp.1
      subst hc0
      exact GlobMatch.one c p tn hne (ih p hp.2)
  | starSkip tp tn _ ih =>
    intro p hp
    cases p with
    | nil => cases hp
    | cons c0 p =>
      simp only [List.map_cons, List.cons.injEq] at hp
      have hc0 : c0 = '*' := by
        by_cases h1 : c0 = '*'
        · exact h1
        · by_cases h2 : c0 = '?'
          · rw [h2] at hp; simp [charTok] at hp
          · have : charTok c0 = RTok.lit c0 := by simp [charTok, h1, h2]
            rw [this] at hp
            cases hp.1
      subst hc0
      exact GlobMatch.starSkip p tn (ih p hp.2)
  | starCons c tp tn hne _ ih =>
    intro p hp
    cases p with
    | nil => cases hp
    | cons c0 p =>
      simp only [List.map_cons, List.cons.injEq] at hp
      have hc0 : c0 = '*' := by
        by_cases h1 : c0 = '*'
        · exact h1
        · by_cases h2 : c0 = '?'
          · rw [h2] at hp; simp [charTok] at hp
          · have : charTok c0 = RTok.lit c0 := by simp [charTok, h1, h2]
            rw [this] at hp
            cases hp.1
      subst hc0
      exact GlobMatch.starCons c p tn hne (ih ('*' :: p) (by simp [charTok, hp.2]))

theorem glob_to_tokMatch {p n : List Char} (h : GlobMatch p n) :
    TokMatch (p.map charTok) n := by
  induction h with
  | nil => exact TokMatch.nil
  | lit c pp nn hs hq _ ih =>
    have : charTok c = RTok.lit c := by simp [charTok, hs, hq]
    rw [List.map_cons, this]
    exact TokMatch.lit c _ _ ih
  | one c pp nn hne _ ih =>
    rw [List.map_cons]
    exact TokMatch.one c _ _ hne (by simpa [charTok] using ih)
  | starSkip pp nn _ ih =>
    rw [List.map_cons]
    exact TokMatch.starSkip _ _ ih
  | starCons c pp nn hne _ ih =>
    rw [List.map_cons]
    exact TokMatch.starCons c _ _ hne (by simpa [charTok, List.map_cons] using ih)

theorem buildPatterns_regex :
    ∀ (ps : List String) (patterns : List IgnorePattern),
      buildPatterns ps = Except.ok patterns →
      ∀ pat ∈ patterns, pat.regex = pat.pattern.toList.map charTok := by
  intro ps
  induction ps with
  | nil =>
    intro patterns h pat hpat
    cases h
    cases hpat
  | cons p rest ih =>
    intro patterns h pat hpat
    simp only [buildPatterns] at h
    rw [regexpCompile_convert] at h
    cases hb : buildPatterns rest with
    | ok l =>
      rw [hb] at h
      cases h
      rcases List.mem_cons.mp hpat with heq | hm
      · rw [heq]
      · exact ih l hb pat hm
    | error e =>
      rw [hb] at h
      cases h

theorem buildPatterns_ok : ∀ ps : List String, ∃ l, buildPatterns ps = Except.ok l := by
  intro ps
  induction ps with
  | nil => exact ⟨[], rfl⟩
  | cons p rest ih =>
    obtain ⟨l, hl⟩ := ih
    simp only [buildPatterns]
    rw [regexpCompile_convert, hl]
    exact ⟨_, rfl⟩

/-! ## Provenance of emitted differences under an ignore filter -/

/-- Every difference the filtering Comparer emits is about a non-ignored
object: its subject's kind and name (and, for table children, the owning
table) fail every matching ignore pattern. -/
def DiffProvenance (ic : IgnoreConfig) (d : Difference) : Prop :=
  if d.objectType = "Table" ∨ d.objectType = "Table Comment" then
    ShouldIgnore ic "table" d.objectName = false
  else if d.objectType = "Column" then
    ∃ tn cn, d.objectName = tn ++ "." ++ cn ∧
      ShouldIgnore ic "table" tn = false ∧ ShouldIgnore ic "column" cn = false
  else if d.objectType = "Constraint" then
    ∃ tn cn, d.objectName = tn ++ "." ++ cn ∧
      ShouldIgnore ic "table" tn = false ∧ ShouldIgnore ic "constraint" cn = false
  else if d.objectType = "Index" then
    ShouldIgnore ic "index" d.objectName = false ∨
    ∃ tn iname, d.objectName = tn ++ "." ++ iname ∧
      ShouldIgnore ic "table" tn = false ∧ ShouldIgnore ic "index" iname = false
  else if d.objectType = "View" then ShouldIgnore ic "view" d.objectName = false
  else if d.objectType = "Sequence" then ShouldIgnore ic "sequence" d.objectName = false
  else if d.objectType = "Procedure" then ShouldIgnore ic "procedure" d.objectName = false
  else if d.objectType = "Function" then ShouldIgnore ic "function" d.objectName = false
  else if d.objectType = "Trigger" then ShouldIgnore ic "trigger" d.objectName = false
  else True

theorem applyFilter_some {α : Type} (ic : IgnoreConfig) (f : IgnoreConfig → List α → List α)
    (l : List α) : applyFilter (NewComparerWithIgnore ic) f l = f ic l := rfl

theorem applyFilter_none {α : Type} (f : IgnoreConfig → List α → List α)
    (l : List α) : applyFilter NewComparer f l = l := rfl

theorem mem_filter_shouldIgnore {α : Type} (ic : IgnoreConfig) (kind : String)
    (key : α → String) {l : List α} {x : α}
    (h : x ∈ l.filter (fun a => !ShouldIgnore ic kind (key a))) :
    ShouldIgnore ic kind (key x) = false := by
  have := (List.mem_filter.mp h).2
  simpa using this

theorem filterTables_mem (ic : IgnoreConfig) {l : List Table} {tb : Table}
    (h : tb ∈ filterTables ic l) :
    ShouldIgnore ic "table" tb.name = false ∧
    (∀ c ∈ tb.columns, ShouldIgnore ic "column" c.name = false) ∧
    (∀ c ∈ tb.constraints, ShouldIgnore ic "constraint" c.name = false) ∧
    (∀ i ∈ tb.indexes, ShouldIgnore ic "index" i.name = false) := by
  simp only [filterTables] at h
  rcases List.mem_map.mp h with ⟨t0, ht0, rfl⟩
  have h1 : ShouldIgnore ic "table" t0.name = false :=
    mem_filter_shouldIgnore ic "table" Table.name ht0
  refine ⟨h1, ?_, ?_, ?_⟩
  · intro c hc
    exact mem_filter_shouldIgnore ic "column" Column.name hc
  · intro c hc
    exact mem_filter_shouldIgnore ic "constraint" Constraint.name hc
  · intro i hi
    exact mem_filter_shouldIgnore ic "index" Index.name hi

theorem filterTables_names (ic : IgnoreConfig) {l : List Table} {n : String}
    (h : n ∈ (filterTables ic l).map Table.name) :
    ShouldIgnore ic "table" n = false := by
  rcases List.mem_map.mp h with ⟨tb, htb, rfl⟩
  exact (filterTables_mem ic htb).1

/-- Differences about table children (emitted by `compareTable` on a pair
of same-named tables surviving the table filter) concern only non-ignored
children of that table. -/
theorem compareTable_provenance (ic : IgnoreConfig) {s t : Table} {d : Difference}
    (hd : d ∈ compareTable s t)
    (hs : ShouldIgnore ic "table" s.name = false)
    (hcols : ∀ c ∈ s.columns, ShouldIgnore ic "column" c.name = false)
    (hcols' : ∀ c ∈ t.columns, ShouldIgnore ic "column" c.name = false)
    (hcons : ∀ c ∈ s.constraints, ShouldIgnore ic "constraint" c.name = false)
    (hcons' : ∀ c ∈ t.constraints, ShouldIgnore ic "constraint" c.name = false)
    (hidx : ∀ i ∈ s.indexes, ShouldIgnore ic "index" i.name = false)
    (hidx' : ∀ i ∈ t.indexes, ShouldIgnore ic "index" i.name = false) :
    DiffProvenance ic d := by
  simp only [compareTable, List.mem_append] at hd
  rcases hd with ((hd | hd) | hd) | hd
  · obtain ⟨hot, k, hname, hk⟩ :=
      mem_compareByName "Column" Column.name _ columnsEqual _ _ _ hd
    have hkf : ShouldIgnore ic "column" k = false := by
      rcases hk with hk | hk
      · rcases List.mem_map.mp hk with ⟨c, hc, rfl⟩
        exact hcols c hc
      · rcases List.mem_map.mp hk with ⟨c, hc, rfl⟩
        exact hcols' c hc
    simp only [DiffProvenance, hot]
    rw [if_pos trivial]
    exact ⟨s.name, k, hname, hs, hkf⟩
  · obtain ⟨hot, k, hname, hk⟩ :=
      mem_compareByName "Constraint" Constraint.name _ constraintsEqual _ _ _ hd
    have hkf : ShouldIgnore ic "constraint" k = false := by
      rcases hk with hk | hk
      · rcases List.mem_map.mp hk with ⟨c, hc, rfl⟩
        exact hcons c hc
      · rcases List.mem_map.mp hk with ⟨c, hc, rfl⟩
        exact hcons' c hc
    simp only [DiffProvenance, hot]
    rw [if_pos trivial]
    exact ⟨s.name, k, hname, hs, hkf⟩
  · obtain ⟨hot, k, hname, hk⟩ :=
      mem_compareByName "Index" Index.name _ indexesEqual _ _ _ hd
    have hkf : ShouldIgnore ic "index" k = false := by
      rcases hk with hk | hk
      · rcases List.mem_map.mp hk with ⟨c, hc, rfl⟩
        exact hidx c hc
      · rcases List.mem_map.mp hk with ⟨c, hc, rfl⟩
        exact hidx' c hc
    simp only [DiffProvenance, hot]
    rw [if_pos trivial]
    exact Or.inr ⟨s.name, k, hname, hs, hkf⟩
  · split at hd
    · have hd' := List.mem_singleton.mp hd
      subst hd'
      simp only [DiffProvenance]
      rw [if_pos (Or.inr trivial)]
      exact hs
    · cases hd

theorem Compare_provenance (ic : IgnoreConfig) (A B : Schema) {d : Difference}
    (hd : d ∈ ((NewComparerWithIgnore ic).Compare A B).differences) :
    DiffProvenance ic d := by
  simp only [Comparer.Compare, List.mem_append] at hd
  rcases hd with ((((((hd | hd) | hd) | hd) | hd) | hd) | hd)
  · simp only [Comparer.compareTables, applyFilter_some, List.mem_append] at hd
    rcases hd with (hd | hd) | hd
    · rcases List.mem_filterMap.mp hd with ⟨k, hkmem, hf⟩
      split at hf
      · cases hf
      · cases hf
        have hk : ShouldIgnore ic "table" k = false :=
          filterTables_names ic ((mem_goMapKeys Table.name _ k).mp hkmem)
        simpa [DiffProvenance] using hk
    · rcases List.mem_filterMap.mp hd with ⟨k, hkmem, hf⟩
      split at hf
      · cases hf
      · cases hf
        have hk : ShouldIgnore ic "table" k = false :=
          filterTables_names ic ((mem_goMapKeys Table.name _ k).mp hkmem)
        simpa [DiffProvenance] using hk
    · rcases List.mem_flatMap.mp hd with ⟨k, hkmem, hd2⟩
      split at hd2
      · rename_i s t hgs hgt
        have hsmem := goMapGet_mem Table.name k hgs
        have htmem := goMapGet_mem Table.name k hgt
        obtain ⟨fs1, fs2, fs3, fs4⟩ := filterTables_mem ic hsmem.1
        obtain ⟨ft1, ft2, ft3, ft4⟩ := filterTables_mem ic htmem.1
        exact compareTable_provenance ic hd2 fs1 fs2 ft2 fs3 ft3 fs4 ft4
      · cases hd2
  · simp only [Comparer.compareViews, applyFilter_some] at hd
    obtain ⟨hot, k, hname, hk⟩ := mem_compareByName "View" View.name _ viewsEqual _ _ _ hd
    have hkf : ShouldIgnore ic "view" k = false := by
      rcases hk with hk | hk <;>
      · rcases List.mem_map.mp hk with ⟨v, hv, rfl⟩
        exact mem_filter_shouldIgnore ic "view" View.name hv
    simpa [DiffProvenance, hot, hname] using hkf
  · simp only [Comparer.compareIndexes, applyFilter_some] at hd
    obtain ⟨hot, k, hname, hk⟩ := mem_compareByName "Index" Index.name _ indexesEqual _ _ _ hd
    have hkf : ShouldIgnore ic "index" k = false := by
      rcases hk with hk | hk <;>
      · rcases List.mem_map.mp hk with ⟨v, hv, rfl⟩
        exact mem_filter_shouldIgnore ic "index" Index.name hv
    simp only [DiffProvenance, hot, hname]
    rw [if_pos trivial]
    exact Or.inl hkf
  · simp only [Comparer.compareSequences, applyFilter_some] at hd
    obtain ⟨hot, k, hname, hk⟩ :=
      mem_compareByName "Sequence" Sequence.name _ sequencesEqual _ _ _ hd
    have hkf : ShouldIgnore ic "sequence" k = false := by
      rcases hk with hk | hk <;>
      · rcases List.mem_map.mp hk with ⟨v, hv, rfl⟩
        exact mem_filter_shouldIgnore ic "sequence" Sequence.name hv
    simpa [DiffProvenance, hot, hname] using hkf
  · simp only [Comparer.compareProcedures, applyFilter_some] at hd
    obtain ⟨hot, k, hname, hk⟩ :=
      mem_compareByName "Procedure" Procedure.name _ proceduresEqual _ _ _ hd
    have hkf : ShouldIgnore ic "procedure" k = false := by
      rcases hk with hk | hk <;>
      · rcases List.mem_map.mp hk with ⟨v, hv, rfl⟩
        exact mem_filter_shouldIgnore ic "procedure" Procedure.name hv
    simpa [DiffProvenance, hot, hname] using hkf
  · simp only [Comparer.compareFunctions, applyFilter_some] at hd
    obtain ⟨hot, k, hname, hk⟩ :=
      mem_compareByName "Function" Func.name _ functionsEqual _ _ _ hd
    have hkf : ShouldIgnore ic "function" k = false := by
      rcases hk with hk | hk <;>
      · rcases List.mem_map.mp hk with ⟨v, hv, rfl⟩
        exact mem_filter_shouldIgnore ic "function" Func.name hv
    simpa [DiffProvenance, hot, hname] using hkf
  · simp only [Comparer.compareTriggers, applyFilter_some] at hd
    obtain ⟨hot, k, hname, hk⟩ :=
      mem_compareByName "Trigger" Trigger.name _ triggersEqual _ _ _ hd
    have hkf : ShouldIgnore ic "trigger" k = false := by
      rcases hk with hk | hk <;>
      · rcases List.mem_map.mp hk with ⟨v, hv, rfl⟩
        exact mem_filter_shouldIgnore ic "trigger" Trigger.name hv
    simpa [DiffProvenance, hot, hname] using hkf

/-! ## Replacing one table name-preservingly -/

theorem compareColumns_self (tn : String) (l : List Column) : compareColumns tn l l = [] :=
  compareByName_nil _ _ _ _ _ _ _ (fun a b (h : a = b) => h ▸ rfl)
    (fun a _ h => h ▸ columnsEqual_of_blind (columnBlindEq_refl a))
    (forall₂_of_eq rfl fun _ => rfl)

theorem compareConstraints_self (tn : String) (l : List Constraint) :
    compareConstraints tn l l = [] :=
  compareByName_nil _ _ _ _ _ _ _ (fun a b (h : a = b) => h ▸ rfl)
    (fun a _ h => h ▸ constraintsEqual_of_blind (constraintBlindEq_refl a))
    (forall₂_of_eq rfl fun _ => rfl)

theorem compareTables_middle (pre post : List Table) (t t' : Table)
    (hname : t'.name = t.name)
    (hnodup : ((pre ++ t :: post).map Table.name).Nodup) :
    NewComparer.compareTables (pre ++ t :: post) (pre ++ t' :: post) = compareTable t t' := by
  simp only [Comparer.compareTables, applyFilter_none]
  have hmap : (pre ++ t :: post).map Table.name = (pre ++ t' :: post).map Table.name := by
    simp [List.map_append, hname]
  have hupost : t.name ∉ post.map Table.name := nodup_middle_not_post Table.name hnodup
  have hgetu : goMapGet Table.name t.name (pre ++ t :: post) = some t :=
    goMapGet_middle_self Table.name pre post hupost
  have hgetv : goMapGet Table.name t.name (pre ++ t' :: post) = some t' := by
    rw [← hname]
    exact goMapGet_middle_self Table.name pre post (by rw [hname]; exact hupost)
  have hrem : ((goMapKeys Table.name (pre ++ t :: post)).filterMap fun k =>
      match goMapGet Table.name k (pre ++ t' :: post) with
      | some _ => none
      | none =>
        some (Difference.mk "REMOVED" "Table" k "Table exists in source but not in target")) =
      [] := by
    refine List.filterMap_eq_nil_iff.mpr ?_
    intro k hkmem
    have : k ∈ (pre ++ t' :: post).map Table.name :=
      hmap ▸ (mem_goMapKeys Table.name _ k).mp hkmem
    rcases (goMapGet_isSome_iff Table.name k _).mpr this with ⟨w, hw⟩
    simp [hw]
  have hadd : ((goMapKeys Table.name (pre ++ t' :: post)).filterMap fun k =>
      match goMapGet Table.name k (pre ++ t :: post) with
      | some _ => none
      | none =>
        some (Difference.mk "ADDED" "Table" k "Table exists in target but not in source")) =
      [] := by
    refine List.filterMap_eq_nil_iff.mpr ?_
    intro k hkmem
    have : k ∈ (pre ++ t :: post).map Table.name :=
      hmap ▸ (mem_goMapKeys Table.name _ k).mp hkmem
    rcases (goMapGet_isSome_iff Table.name k _).mpr this with ⟨w, hw⟩
    simp [hw]
  have hmod : ((goMapKeys Table.name (pre ++ t :: post)).flatMap fun k =>
      match goMapGet Table.name k (pre ++ t :: post),
        goMapGet Table.name k (pre ++ t' :: post) with
      | some s, some t2 => compareTable s t2
      | _, _ => []) = compareTable t t' := by
    rw [flatMap_single t.name (goMapKeys_nodup Table.name _)
      ((mem_goMapKeys Table.name _ t.name).mpr (by simp [List.map_append]))
      ?_]
    · rw [hgetu, hgetv]
    · intro k hkmem hkne
      rw [← goMapGet_middle_ne Table.name hname.symm hkne pre post]
      cases hg : goMapGet Table.name k (pre ++ t :: post) with
      | some w => simp [hg, compareTable_nil (tableBlindEq_refl w)]
      | none => simp [hg]
  rw [hrem, hadd, hmod]
  rfl

/-! ## Concrete instances used by witnesses and counterexamples -/

def exCol1 : Column := ⟨"id", "integer", false, none, true, false, false, "old comment", 1⟩

def exCol2 : Column := ⟨"id", "integer", false, none, true, false, false, "new comment", 1⟩

def exS1 : Schema :=
  ⟨"db", "postgresql", [⟨"public", "users", [exCol1], [], [], ""⟩], [], [], [], [], [], []⟩

def exS2 : Schema :=
  ⟨"db", "postgresql", [⟨"public", "users", [exCol2], [], [], ""⟩], [], [], [], [], [], []⟩

def exColP1 : Column := ⟨"id", "integer", false, none, true, false, false, "", 1⟩

def exColP2 : Column := ⟨"id", "integer", false, none, true, false, false, "", 2⟩

def exPosA : Schema :=
  ⟨"db", "postgresql", [⟨"public", "users", [exColP1], [], [], ""⟩], [], [], [], [], [], []⟩

def exPosB : Schema :=
  ⟨"db", "postgresql", [⟨"public", "users", [exColP2], [], [], ""⟩], [], [], [], [], [], []⟩

def exConA : Constraint :=
  ⟨"fk_orders_users", "FOREIGN_KEY", ["user_id", "org_id"], "users", ["id", "org"],
   "NO ACTION", "CASCADE", ""⟩

def exConB : Constraint :=
  ⟨"fk_orders_users", "FOREIGN_KEY", ["org_id", "user_id"], "users", ["id", "org"],
   "NO ACTION", "SET NULL", ""⟩

def exConC : Constraint :=
  ⟨"fk_orders_users", "FOREIGN_KEY", ["user_id", "org_id"], "users", ["id", "org"],
   "RESTRICT", "SET NULL", ""⟩

def exVolA : Schema :=
  ⟨"db", "postgresql", [⟨"public", "orders", [], [exConA], [], ""⟩], [], [],
   [⟨"public", "order_seq", 1, 1, 1, 1000, false, 41⟩], [], [], []⟩

def exVolB : Schema :=
  ⟨"db", "postgresql", [⟨"public", "orders", [], [exConC], [], ""⟩], [], [],
   [⟨"public", "order_seq", 1, 1, 1, 1000, false, 42⟩], [], [], []⟩

def exConSA : Schema :=
  ⟨"db", "postgresql", [⟨"public", "orders", [], [exConA], [], ""⟩], [], [], [], [], [], []⟩

def exConSB : Schema :=
  ⟨"db", "postgresql", [⟨"public", "orders", [], [exConB], [], ""⟩], [], [], [], [], [], []⟩

def exMut : Schema :=
  ⟨"db", "postgresql", [⟨"", "b", [], [], [], ""⟩, ⟨"", "a", [], [], [], ""⟩],
   [], [], [], [], [], []⟩

def exIdx : Index := ⟨"idx", "users", ["x", "y"], true, "btree"⟩

def exIdxT : Table := ⟨"public", "users", [], [], [exIdx], ""⟩

def exIdxS : Schema := ⟨"db", "postgresql", [exIdxT], [], [], [], [], [], []⟩

def dupT1 : Table := ⟨"", "t", [⟨"a", "int", false, none, false, false, false, "", 0⟩], [], [], ""⟩

def dupT2 : Table := ⟨"", "t", [⟨"b", "int", false, none, false, false, false, "", 0⟩], [], [], ""⟩

def exDupA : Schema := ⟨"db", "postgresql", [dupT1, dupT2], [], [], [], [], [], []⟩

def exDupB : Schema := ⟨"db", "postgresql", [dupT2, dupT1], [], [], [], [], [], []⟩

def exPermA : Schema :=
  ⟨"db", "postgresql",
   [⟨"", "posts", [⟨"pid", "int", false, none, true, false, false, "", 1⟩], [], [], ""⟩,
    ⟨"", "users",
     [⟨"id", "int", false, none, true, false, false, "", 1⟩,
      ⟨"name", "text", true, none, false, false, false, "", 2⟩], [], [], ""⟩],
   [], [], [], [], [], []⟩

def exPermB : Schema :=
  ⟨"db", "postgresql",
   [⟨"", "users",
     [⟨"name", "text", true, none, false, false, false, "", 2⟩,
      ⟨"id", "int", false, none, true, false, false, "", 1⟩], [], [], ""⟩,
    ⟨"", "posts", [⟨"pid", "int", false, none, true, false, false, "", 1⟩], [], [], ""⟩],
   [], [], [], [], [], []⟩

def icTemp : IgnoreConfig :=
  ⟨[⟨"temp_*", "table",
     [RTok.lit 't', RTok.lit 'e', RTok.lit 'm', RTok.lit 'p', RTok.lit '_', RTok.star]⟩]⟩

def icQm : IgnoreConfig := ⟨[⟨"?", "*", [RTok.anyOne]⟩]⟩

def exEmptyS : Schema := ⟨"db", "postgresql", [], [], [], [], [], [], []⟩

def exTempS : Schema :=
  ⟨"db", "postgresql",
   [⟨"public", "temp_cache", [⟨"k", "text", false, none, true, false, false, "", 1⟩], [], [], ""⟩],
   [], [], [], [], [], []⟩

theorem tablePermEq_refl (t : Table) : tablePermEq t t :=
  ⟨rfl, rfl, List.Perm.refl _, List.Perm.refl _, permUpTo_refl indexPermEq_refl _, rfl⟩

/-! ## The claims -/

/-- C1 (corrected): `columnsEqual` compares data type, nullability, the
default value null-safely (two absent defaults are equal, absent versus
present is unequal), the primary-key, unique and auto-increment flags, and
— contrary to the claim — also the comment text; only the ordinal position
is ignored.  Consequently two schemas that differ only in column positions
produce no difference at all, for any Comparer, while a comment-only
column change does emit a Column difference (see the counterexample). -/
theorem claim_C1 :
    (∀ a b : Option String, stringPointersEqual a b = true ↔ a = b) ∧
    (∀ s t : Column, columnsEqual s t = true ↔
      (s.dataType = t.dataType ∧ s.isNullable = t.isNullable ∧
       s.defaultValue = t.defaultValue ∧ s.isPrimaryKey = t.isPrimaryKey ∧
       s.isUnique = t.isUnique ∧ s.isAutoIncrement = t.isAutoIncrement ∧
       s.comment = t.comment)) ∧
    (∀ A B : Schema, schemaPosEq A B → ∀ c : Comparer, (c.Compare A B).differences = []) :=
  ⟨stringPointersEqual_iff, columnsEqual_iff,
   fun _ _ h c => Compare_blind c (schemaPosEq_blind h)⟩

/-- C1 counterexample: two schemas whose single column differs only in its
comment text; the claim says Compare emits no Column difference for it, but
the code emits exactly one `MODIFIED` Column difference. -/
theorem claim_C1_counterexample :
    exCol1.dataType = exCol2.dataType ∧ exCol1.isNullable = exCol2.isNullable ∧
    exCol1.defaultValue = exCol2.defaultValue ∧ exCol1.isPrimaryKey = exCol2.isPrimaryKey ∧
    exCol1.isUnique = exCol2.isUnique ∧ exCol1.isAutoIncrement = exCol2.isAutoIncrement ∧
    exCol1.position = exCol2.position ∧ exCol1.name = exCol2.name ∧
    exCol1.comment ≠ exCol2.comment ∧
    (NewComparer.Compare exS1 exS2).differences =
      [⟨"MODIFIED", "Column", "users.id", "Column definition changed"⟩] := by
  decide

/-- C1 witness: a concrete position-only change produces no differences. -/
theorem claim_C1_witness :
    schemaPosEq exPosA exPosB ∧ (NewComparer.Compare exPosA exPosB).differences = [] :=
  ⟨by decide, claim_C1.2.2 exPosA exPosB (by decide) NewComparer⟩

/-- C2 (corrected): sequence `CurrentValue` and constraint
`OnUpdate`/`OnDelete` never influence the fingerprint — two schemas
deep-equal except in those fields always produce identical digest strings.
Column `Position`, however, is written into the canonical form
(`normalizeColumns` emits a `position` key), so the position part of the
claim fails; see the counterexample. -/
theorem claim_C2 :
    ∀ A B : Schema, schemaVolEq A B →
      NewHasher.GenerateFingerprint A = NewHasher.GenerateFingerprint B := by
  intro A B h
  show sha256hex _ = sha256hex _
  rw [normalizeSchema_volEq NewHasher.includeComments h]

/-- C2 counterexample: two schemas deep-equal except in one column's
`Position` (1 versus 2) produce different digests. -/
theorem claim_C2_counterexample :
    schemaPosEq exPosA exPosB ∧ exPosA ≠ exPosB ∧
    NewHasher.GenerateFingerprint exPosA ≠ NewHasher.GenerateFingerprint exPosB := by
  decide

/-- C2 witness: changing only the current value of a sequence and the
update/delete actions of a foreign key keeps the digest identical. -/
theorem claim_C2_witness :
    schemaVolEq exVolA exVolB ∧
    NewHasher.GenerateFingerprint exVolA = NewHasher.GenerateFingerprint exVolB := by
  have h : schemaVolEq exVolA exVolB := by decide
  exact ⟨h, claim_C2 exVolA exVolB h⟩

/-- C3 (code bug): `GenerateFingerprint` does mutate its input. The
normalize passes run `sort.Slice` on the backing arrays of the caller, so
after the call the collections of the schema are reordered by name: on a schema whose
tables arrive as `["b", "a"]` the caller observes `["a", "b"]`
afterwards, contradicting the claimed frame condition (which the spec
itself flags as violated by the reference behavior). -/
theorem claim_C3 :
    fingerprintPostState exMut ≠ exMut ∧
    exMut.tables.map Table.name = ["b", "a"] ∧
    (fingerprintPostState exMut).tables.map Table.name = ["a", "b"] := by
  decide

/-- C4 (confirmed): for a schema `A` containing a table whose index `idx`
is on column list `[x, y]` (`x ≠ y`, object names unique) and `B`
identical except that this index is on `[y, x]`, Compare emits exactly one
MODIFIED Index difference, named `table.index`, because `indexesEqual`
compares the column lists as ordered sequences — while the fingerprints of
`A` and `B` coincide, because `normalizeTableIndexes` sorts each index
column list before hashing. -/
theorem claim_C4 (A : Schema) (pre post : List Table) (t : Table)
    (ipre ipost : List Index) (idx : Index) (x y : String)
    (hcols : idx.columns = [x, y]) (hxy : x ≠ y)
    (hI : t.indexes = ipre ++ idx :: ipost)
    (hT : A.tables = pre ++ t :: post)
    (hndT : (A.tables.map Table.name).Nodup)
    (hndI : (t.indexes.map Index.name).Nodup) :
    (NewComparer.Compare A
        { A with tables := pre ++
            { t with indexes := ipre ++ { idx with columns := [y, x] } :: ipost } :: post
        }).differences =
      [Difference.mk "MODIFIED" "Index" (t.name ++ "." ++ idx.name)
        "Index definition changed"] ∧
    NewHasher.GenerateFingerprint A =
      NewHasher.GenerateFingerprint
        { A with tables := pre ++
            { t with indexes := ipre ++ { idx with columns := [y, x] } :: ipost } :: post } := by
  have hlist : ([x, y] : List String) ≠ [y, x] := by
    intro h
    injection h with h1 _
    exact hxy h1
  have hne : indexesEqual idx { idx with columns := [y, x] } = false := by
    simp [indexesEqual, hcols, hlist]
    exact fun h _ => hxy h
  have hImap : ((ipre ++ idx :: ipost).map Index.name).Nodup := hI ▸ hndI
  have hTmap : ((pre ++ t :: post).map Table.name).Nodup := hT ▸ hndT
  have hidx : compareTableIndexes t.name (ipre ++ idx :: ipost)
      (ipre ++ { idx with columns := [y, x] } :: ipost) =
      [Difference.mk "MODIFIED" "Index" (t.name ++ "." ++ idx.name)
        "Index definition changed"] :=
    compareByName_single "Index" Index.name (fun n => t.name ++ "." ++ n) indexesEqual
      "Index removed from table" "Index added to table" "Index definition changed"
      rfl hImap (fun z => indexesEqual_of_blind (indexBlindEq_refl z)) hne
  have ht' : compareTable t
      { t with indexes := ipre ++ { idx with columns := [y, x] } :: ipost } =
      [Difference.mk "MODIFIED" "Index" (t.name ++ "." ++ idx.name)
        "Index definition changed"] := by
    simp only [compareTable, compareColumns_self, compareConstraints_self]
    rw [hI, hidx]
    simp
  have htab : NewComparer.compareTables A.tables
      (pre ++ { t with indexes := ipre ++ { idx with columns := [y, x] } :: ipost } :: post) =
      [Difference.mk "MODIFIED" "Index" (t.name ++ "." ++ idx.name)
        "Index definition changed"] := by
    rw [hT, compareTables_middle pre post t
      { t with indexes := ipre ++ { idx with columns := [y, x] } :: ipost } rfl hTmap, ht']
  have hsortxy : sortOn id [x, y] = sortOn id [y, x] :=
    sortStrings_perm (List.Perm.swap y x [])
  have hnti : normalizeTableIndexes (ipre ++ idx :: ipost) =
      normalizeTableIndexes (ipre ++ { idx with columns := [y, x] } :: ipost) := by
    simp only [normalizeTableIndexes]
    apply normSort_congr
    simp only [List.map_append, List.map_cons]
    rw [hcols, hsortxy]
  have hntab : normalizeTables false A.tables =
      normalizeTables false
        (pre ++ { t with indexes := ipre ++ { idx with columns := [y, x] } :: ipost } :: post) := by
    rw [hT]
    simp only [normalizeTables]
    apply normSort_congr
    simp only [List.map_append, List.map_cons]
    rw [hI, hnti]
  refine ⟨?_, ?_⟩
  · simp only [Comparer.Compare]
    rw [htab,
      NewComparer.compareViews_nil (forall₂_of_eq rfl fun v => ⟨rfl, rfl⟩),
      NewComparer.compareIndexes_nil (forall₂_of_eq rfl indexBlindEq_refl),
      NewComparer.compareSequences_nil
        (forall₂_of_eq rfl fun s => ⟨rfl, rfl, rfl, rfl, rfl, rfl⟩),
      NewComparer.compareProcedures_nil (forall₂_of_eq rfl fun p => ⟨rfl, rfl⟩),
      NewComparer.compareFunctions_nil (forall₂_of_eq rfl fun f => ⟨rfl, rfl, rfl⟩),
      NewComparer.compareTriggers_nil
        (forall₂_of_eq rfl fun tr => ⟨rfl, rfl, rfl, rfl, rfl⟩)]
    rfl
  · have hnorm : normalizeSchema false A =
        normalizeSchema false
          { A with tables := pre ++
              { t with indexes := ipre ++ { idx with columns := [y, x] } :: ipost } :: post } := by
      simp only [normalizeSchema]
      rw [hntab]
    show sha256hex (encNormSchema (normalizeSchema false A)) = sha256hex _
    rw [hnorm]
    rfl

/-- C4 witness: the swap of the two columns of index `users.idx`. -/
theorem claim_C4_witness :
    exIdx.columns = ["x", "y"] ∧
    (NewComparer.Compare exIdxS
        { exIdxS with
          tables := [{ exIdxT with indexes := [{ exIdx with columns := ["y", "x"] }] }]
        }).differences =
      [Difference.mk "MODIFIED" "Index" "users.idx" "Index definition changed"] ∧
    NewHasher.GenerateFingerprint exIdxS =
      NewHasher.GenerateFingerprint
        { exIdxS with
          tables := [{ exIdxT with indexes := [{ exIdx with columns := ["y", "x"] }] }] } := by
  have h := claim_C4 exIdxS [] [] exIdxT [] [] exIdx "x" "y" rfl (by decide) rfl rfl
    (by decide) (by decide)
  exact ⟨rfl, h.1, h.2⟩

/-- C5 (corrected): `GenerateFingerprint` is deterministic, always returns
a 64-character string over the lowercase hex alphabet, and is invariant
under permutation of every collection (tables, columns, constraints,
indexes, index columns, views, sequences, routines, parameters) —
provided object names are unique within each collection, which is the
data-model invariant stated by the spec.  With duplicate names the name-keyed sort
leaves tied elements in input order and permutation can change the digest;
see the counterexample. -/
theorem claim_C5 :
    (∀ S : Schema, NewHasher.GenerateFingerprint S = NewHasher.GenerateFingerprint S ∧
      (NewHasher.GenerateFingerprint S).length = 64 ∧
      ∀ c ∈ (NewHasher.GenerateFingerprint S).toList, c ∈ "0123456789abcdef".toList) ∧
    (∀ S1 S2 : Schema, schemaPermEq S1 S2 → schemaNamesNodup S1 →
      NewHasher.GenerateFingerprint S1 = NewHasher.GenerateFingerprint S2) := by
  constructor
  · intro S
    exact ⟨rfl, sha256hex_length _, sha256hex_lowercase_hex _⟩
  · intro S1 S2 h hnd
    show sha256hex _ = sha256hex _
    rw [normalizeSchema_permEq NewHasher.includeComments h hnd]

/-- C5 counterexample: two schemas that are deep-equal up to permutation of
their table collection but contain two distinct tables with the same name
produce different digests. -/
theorem claim_C5_counterexample :
    schemaPermEq exDupA exDupB ∧
    NewHasher.GenerateFingerprint exDupA ≠ NewHasher.GenerateFingerprint exDupB := by
  constructor
  · exact ⟨rfl, rfl, permUpTo_of_perm tablePermEq_refl (by decide), by decide,
      permUpTo_refl indexPermEq_refl _, by decide,
      permUpTo_refl (fun p => ⟨rfl, rfl, List.Perm.refl _, rfl⟩) _,
      permUpTo_refl (fun f => ⟨rfl, rfl, List.Perm.refl _, rfl, rfl⟩) _, by decide⟩
  · decide

/-- C5 witness: permuting tables and the columns inside one table (all
names distinct) leaves the digest unchanged. -/
theorem claim_C5_witness :
    schemaPermEq exPermA exPermB ∧ schemaNamesNodup exPermA ∧
    NewHasher.GenerateFingerprint exPermA = NewHasher.GenerateFingerprint exPermB := by
  have hp : schemaPermEq exPermA exPermB := by
    refine ⟨rfl, rfl, ?_, by decide, permUpTo_refl indexPermEq_refl _, by decide,
      permUpTo_refl (fun p => ⟨rfl, rfl, List.Perm.refl _, rfl⟩) _,
      permUpTo_refl (fun f => ⟨rfl, rfl, List.Perm.refl _, rfl, rfl⟩) _, by decide⟩
    refine ⟨[⟨"", "users",
        [⟨"id", "int", false, none, true, false, false, "", 1⟩,
         ⟨"name", "text", true, none, false, false, false, "", 2⟩], [], [], ""⟩,
      ⟨"", "posts", [⟨"pid", "int", false, none, true, false, false, "", 1⟩], [], [], ""⟩],
      by decide, ?_⟩
    exact List.Forall₂.cons
      ⟨rfl, rfl, by decide, List.Perm.refl _, permUpTo_refl indexPermEq_refl _, rfl⟩
      (List.Forall₂.cons (tablePermEq_refl _) List.Forall₂.nil)
  have hnd : schemaNamesNodup exPermA := by decide
  exact ⟨hp, hnd, claim_C5.2 exPermA exPermB hp hnd⟩

/-- C6 (confirmed): `constraintsEqual` compares kind, owned columns,
referenced table, referenced columns and check expression, treating both
column lists as multisets (order irrelevant, multiplicity significant) and
never reading `OnUpdate`/`OnDelete`; hence schemas deep-equal except for
constraint actions and constraint column order produce no difference. -/
theorem claim_C6 :
    (∀ s t : Constraint, constraintsEqual s t = true ↔
      (s.type = t.type ∧ List.Perm s.columns t.columns ∧
       s.referencedTable = t.referencedTable ∧
       List.Perm s.referencedColumn t.referencedColumn ∧
       s.checkExpression = t.checkExpression)) ∧
    (∀ A B : Schema, schemaConEq A B → ∀ c : Comparer, (c.Compare A B).differences = []) :=
  ⟨constraintsEqual_iff, fun _ _ h c => Compare_blind c (schemaConEq_blind h)⟩

/-- C6 witness: a foreign key whose `OnDelete` changes from CASCADE to SET
NULL and whose column list is reordered produces no difference. -/
theorem claim_C6_witness :
    schemaConEq exConSA exConSB ∧ (NewComparer.Compare exConSA exConSB).differences = [] :=
  ⟨by decide, claim_C6.2 exConSA exConSB (by decide) NewComparer⟩

/-- C7 (confirmed): with an ignore configuration, every emitted difference
concerns only non-ignored objects: schema-level objects whose kind and
name survive the filter, and table children qualified by a non-ignored
table and themselves non-ignored; in particular, with pattern
`table:temp_*` and a target that adds table `temp_cache`, Compare returns
no differences. -/
theorem claim_C7 :
    (∀ (ic : IgnoreConfig) (A B : Schema),
      ∀ d ∈ ((NewComparerWithIgnore ic).Compare A B).differences, DiffProvenance ic d) ∧
    (NewIgnoreConfig ["table:temp_*"] = Except.ok icTemp ∧
     ((NewComparerWithIgnore icTemp).Compare exEmptyS exTempS).differences = []) :=
  ⟨fun ic A B _ hd => Compare_provenance ic A B hd, rfl, by decide⟩

/-- C7 witness: a concrete filtered comparison emitting a Column difference
whose provenance facts hold. -/
theorem claim_C7_witness :
    DiffProvenance icTemp ⟨"MODIFIED", "Column", "users.id", "Column definition changed"⟩ :=
  claim_C7.1 icTemp exS1 exS2 _ (by decide)

/-- C8 (confirmed): Compare is reflexive — with or without an ignore
configuration, comparing any schema against itself yields no differences. -/
theorem claim_C8 : ∀ (c : Comparer) (S : Schema), (c.Compare S S).differences = [] :=
  fun c S => Compare_blind c (schemaBlindEq_refl S)

/-- C9 (corrected): the matcher stored for each ignore pattern accepts a
name exactly when the whole name matches the wildcard pattern — literal
characters verbatim, `*` any run of zero or more NON-NEWLINE characters,
`?` exactly one NON-NEWLINE character — so `ShouldIgnore` matches complete
names only, never substrings.  The newline restriction corrects the claim:
the wildcards become the regexp `.*` and `.`, compiled with the `s` flag
off, under which `.` never matches `'\n'` (see the counterexample). -/
theorem claim_C9 :
    ∀ (ps : List String) (ic : IgnoreConfig), NewIgnoreConfig ps = Except.ok ic →
      ∀ (kind n : String),
        ShouldIgnore ic kind n = true ↔
          ∃ pat ∈ ic.patterns,
            (pat.objectType = "*" ∨ pat.objectType = asciiToLower kind) ∧
            GlobMatch pat.pattern.toList n.toList := by
  intro ps ic hic kind n
  have hbp : buildPatterns ps = Except.ok ic.patterns := by
    unfold NewIgnoreConfig at hic
    cases hb : buildPatterns ps with
    | ok l => rw [hb] at hic; cases hic; rfl
    | error e => rw [hb] at hic; cases hic
  have hreg := buildPatterns_regex ps ic.patterns hbp
  simp only [ShouldIgnore, List.any_eq_true]
  constructor
  · intro ⟨pat, hmem, hp⟩
    simp only [Bool.and_eq_true, Bool.or_eq_true, beq_iff_eq] at hp
    refine ⟨pat, hmem, hp.1, ?_⟩
    have hm := (matchToks_iff _ _).mp hp.2
    rw [hreg pat hmem] at hm
    exact tokMatch_to_glob hm _ rfl
  · intro ⟨pat, hmem, hkind, hg⟩
    refine ⟨pat, hmem, ?_⟩
    simp only [Bool.and_eq_true, Bool.or_eq_true, beq_iff_eq]
    refine ⟨hkind, ?_⟩
    rw [matchToks_iff, hreg pat hmem]
    exact glob_to_tokMatch hg

/-- C9 counterexample: the claim says `?` matches exactly one character
and `*` any run of characters.  But the one-character name consisting of a
newline is not matched by the pattern `?`, and the name `temp_a` ++
newline ++ `b` — which is `temp_` followed by a run of three characters —
is not matched by the pattern `temp_*`, because the compiled `.` and `.*`
never match a newline. -/
theorem claim_C9_counterexample :
    NewIgnoreConfig ["?"] = Except.ok icQm ∧
    ("\n" : String).length = 1 ∧
    ShouldIgnore icQm "table" "\n" = false ∧
    ("temp_a\nb" : String) = "temp_" ++ "a\nb" ∧
    NewIgnoreConfig ["table:temp_*"] = Except.ok icTemp ∧
    ShouldIgnore icTemp "table" "temp_a\nb" = false :=
  ⟨rfl, rfl, by decide, rfl, rfl, by decide⟩

/-- C9 witness: the characterization at the pattern `table:temp_*` and the
name `temp_cache`. -/
theorem claim_C9_witness :
    ShouldIgnore icTemp "table" "temp_cache" = true ↔
      ∃ pat ∈ icTemp.patterns,
        (pat.objectType = "*" ∨ pat.objectType = asciiToLower "table") ∧
        GlobMatch pat.pattern.toList "temp_cache".toList :=
  claim_C9 ["table:temp_*"] icTemp rfl "table" "temp_cache"

/-- C10 (confirmed): `NewIgnoreConfig` is total — every pattern string is
metacharacter-quoted before the wildcard substitutions, the produced
regular expression always compiles, and the `InvalidPattern` error branch
is unreachable. -/
theorem claim_C10 : ∀ ps : List String, ∃ ic, NewIgnoreConfig ps = Except.ok ic := by
  intro ps
  obtain ⟨l, hl⟩ := buildPatterns_ok ps
  refine ⟨⟨l⟩, ?_⟩
  show (buildPatterns ps).map IgnoreConfig.mk = Except.ok ⟨l⟩
  rw [hl]
  rfl

end Schemalyzer
